import Mathlib

/-!
Verification of the SimplerHashTable core (src/src/coreclr/inc/simplerhash.inl):
a chaining hash table whose bucket index is computed with magic-number
division, with prime-sized capacities drawn from a static table, growth
triggered from Set, and explicit failure hooks for overflow and exhaustion.

The embedding is shallow: buckets are lists of (key, value) nodes, chains are
walked head to tail exactly as the C code walks its next-pointers, 32-bit
arithmetic is Nat arithmetic with explicit reduction modulo 2^32 at the points
where the C code computes in `unsigned`, and the non-returning failure hook
Behavior::NoMemory together with out-of-bounds accesses (undefined behavior in
the C code) are rendered as error results.
-/

namespace SimplerHash

/-- Modelled from the spec: the PrimeInfo record { prime, magic, shift : u32 }
(its declaration lives in simplerhash.h, which is not part of the sources;
the spec's data model section gives the three fields). -/
structure PrimeInfo where
  prime : Nat
  magic : Nat
  shift : Nat
deriving DecidableEq

/-- Modelled from the spec: the Behavior policy constants
(growth ratio, density ratio, minimum allocation); the .inl refers to them as
Behavior::s_growth_factor_numerator and so on. -/
structure GrowthBehavior where
  s_growth_factor_numerator : Nat
  s_growth_factor_denominator : Nat
  s_density_factor_numerator : Nat
  s_density_factor_denominator : Nat
  s_minimum_allocation : Nat
deriving DecidableEq

/-- Failure conditions: the Behavior policy's non-returning NoMemory hook, and
out-of-bounds bucket accesses (undefined behavior in the C code, e.g. indexing
the NULL bucket array of the uninitialized table). -/
inductive TableError where
  | noMemory
  | outOfBounds
deriving DecidableEq

/-- Result of a fallible table operation. -/
inductive TRes (A : Type) where
  | ok (val : A)
  | error (e : TableError)
deriving DecidableEq

/-- The table state: bucket array (each bucket is a chain, head first),
current prime-size descriptor, live count, growth threshold.  Field names
follow the C class. -/
structure HashTable (Key Value : Type) where
  m_table : List (List (Key × Value))
  m_tableSizeInfo : PrimeInfo
  m_tableCount : Nat
  m_tableMax : Nat
deriving DecidableEq

/-- The freshly constructed table: m_table = NULL, default PrimeInfo
(prime = 0, the spec's uninitialized zero-capacity state), count = max = 0. -/
def emptyTable (Key Value : Type) : HashTable Key Value :=
  { m_table := [], m_tableSizeInfo := ⟨0, 0, 0⟩, m_tableCount := 0, m_tableMax := 0 }

/-- magicNumberDivide: multiply the 32-bit numerator by the 32-bit magic
number in 64-bit arithmetic, shift right by 32 + shift, cast back to
unsigned. -/
def magicNumberDivide (numerator : Nat) (p : PrimeInfo) : Nat :=
  numerator * p.magic / 2 ^ (32 + p.shift) % 2 ^ 32

/-- magicNumberRem: numerator - div * prime in unsigned (mod 2^32)
arithmetic. -/
def magicNumberRem (numerator : Nat) (p : PrimeInfo) : Nat :=
  (numerator + (2 ^ 32 - magicNumberDivide numerator p * p.prime % 2 ^ 32)) % 2 ^ 32

/-- The spec's precondition on a PrimeInfo: magic and shift compute exact
division by prime for every 32-bit numerator. -/
def validMagic (p : PrimeInfo) : Prop :=
  ∀ n, n < 2 ^ 32 → magicNumberDivide n p = n / p.prime

/-- A usable prime/magic table: every entry has a positive prime and valid
magic constants (the generation-time invariant stated by the spec). -/
def goodTable (pt : List PrimeInfo) : Prop :=
  ∀ p ∈ pt, 0 < p.prime ∧ validMagic p

/-- Granlund-Montgomery style sufficient condition: if
2^(32+s) ≤ M * d ≤ 2^(32+s) + 2^s then the multiply-shift computes n / d
exactly for every n < 2^32. -/
theorem div_eq_of_magic_bounds (d M s : Nat) (hd : 0 < d)
    (h1 : 2 ^ (32 + s) ≤ M * d) (h2 : M * d ≤ 2 ^ (32 + s) + 2 ^ s) :
    ∀ n, n < 2 ^ 32 → n * M / 2 ^ (32 + s) = n / d := by
  intro n hn
  have hk : (0:Nat) < 2 ^ (32 + s) := Nat.pos_pow_of_pos _ (by norm_num)
  apply Nat.le_antisymm
  · -- n * M < (n / d + 1) * 2 ^ (32 + s)
    have hlt : n < (n / d + 1) * d := by
      have := Nat.div_add_mod n d
      have hr : n % d < d := Nat.mod_lt _ hd
      nlinarith [Nat.div_add_mod n d]
    have hstep : n * M * d < (n / d + 1) * 2 ^ (32 + s) * d := by
      have hle : n * (M * d) ≤ n * (2 ^ (32 + s) + 2 ^ s) :=
        Nat.mul_le_mul_left _ h2
      have hsmall : n * 2 ^ s < 2 ^ (32 + s) := by
        have h2s : (0:Nat) < 2 ^ s := Nat.pos_pow_of_pos _ (by norm_num)
        calc n * 2 ^ s < 2 ^ 32 * 2 ^ s := (Nat.mul_lt_mul_right h2s).mpr hn
          _ = 2 ^ (32 + s) := by rw [← pow_add]
      have hnsucc : (n + 1) * 2 ^ (32 + s) ≤ (n / d + 1) * d * 2 ^ (32 + s) := by
        exact Nat.mul_le_mul_right _ hlt
      calc n * M * d = n * (M * d) := by ring
        _ ≤ n * (2 ^ (32 + s) + 2 ^ s) := hle
        _ = n * 2 ^ (32 + s) + n * 2 ^ s := by ring
        _ < n * 2 ^ (32 + s) + 2 ^ (32 + s) := by omega
        _ = (n + 1) * 2 ^ (32 + s) := by ring
        _ ≤ (n / d + 1) * d * 2 ^ (32 + s) := hnsucc
        _ = (n / d + 1) * 2 ^ (32 + s) * d := by ring
    have hmul : n * M < (n / d + 1) * 2 ^ (32 + s) :=
      Nat.lt_of_mul_lt_mul_right hstep
    have := (Nat.div_lt_iff_lt_mul hk).mpr hmul
    omega
  · -- n / d ≤ n * M / 2 ^ (32 + s)
    rw [Nat.le_div_iff_mul_le hk]
    calc n / d * 2 ^ (32 + s) ≤ n / d * (M * d) := Nat.mul_le_mul_left _ h1
      _ = n / d * d * M := by ring
      _ ≤ n * M := Nat.mul_le_mul_right _ (Nat.div_mul_le_self n d)

/-- The numeric bounds establish the spec's validity precondition. -/
theorem validMagic_of_bounds (p : PrimeInfo) (hd : 0 < p.prime)
    (h1 : 2 ^ (32 + p.shift) ≤ p.magic * p.prime)
    (h2 : p.magic * p.prime ≤ 2 ^ (32 + p.shift) + 2 ^ p.shift) :
    validMagic p := by
  intro n hn
  have h := div_eq_of_magic_bounds p.prime p.magic p.shift hd h1 h2 n hn
  have hlt : n / p.prime < 2 ^ 32 := Nat.lt_of_le_of_lt (Nat.div_le_self _ _) hn
  unfold magicNumberDivide
  rw [h, Nat.mod_eq_of_lt hlt]

/-- For a valid PrimeInfo, the unsigned subtraction in magicNumberRem never
wraps and the result is the true remainder. -/
theorem magicNumberRem_eq_mod (p : PrimeInfo) (hval : validMagic p)
    (hp : 0 < p.prime) (n : Nat) (hn : n < 2 ^ 32) :
    magicNumberRem n p = n % p.prime := by
  unfold magicNumberRem
  rw [hval n hn]
  have hle : n / p.prime * p.prime ≤ n := Nat.div_mul_le_self n p.prime
  have hltU : n / p.prime * p.prime < 2 ^ 32 := Nat.lt_of_le_of_lt hle hn
  rw [Nat.mod_eq_of_lt hltU]
  have hmod := Nat.div_add_mod n p.prime
  have hsub : n + (2 ^ 32 - n / p.prime * p.prime)
      = (n - n / p.prime * p.prime) + 2 ^ 32 := by omega
  rw [hsub, Nat.add_mod_right, Nat.mod_eq_of_lt (by omega)]
  have : p.prime * (n / p.prime) = n / p.prime * p.prime := by ring
  omega

/-- A valid bucket index: the remainder is below the prime. -/
theorem magicNumberRem_lt (p : PrimeInfo) (hval : validMagic p)
    (hp : 0 < p.prime) (n : Nat) (hn : n < 2 ^ 32) :
    magicNumberRem n p < p.prime := by
  rw [magicNumberRem_eq_mod p hval hp n hn]
  exact Nat.mod_lt _ hp

section Operations

variable {Key Value : Type} [DecidableEq Key]
variable (hash : Key → Nat) (B : GrowthBehavior) (primeTable : List PrimeInfo)

/-- GetIndexForKey: hash the key (KeyFuncs::GetHashCode is the external hash
policy, modelled by the function hash) and reduce by the current prime. -/
def GetIndexForKey (ht : HashTable Key Value) (k : Key) : Nat :=
  magicNumberRem (hash k) ht.m_tableSizeInfo

/-- FindNode: return early when the table is uninitialized (prime = 0),
otherwise read the bucket for the key's index and walk the chain until
KeyFuncs::Equals matches.  Reading past the bucket array is undefined
behavior, rendered as an outOfBounds error. -/
def FindNode (ht : HashTable Key Value) (k : Key) :
    TRes (Option (Key × Value)) :=
  if ht.m_tableSizeInfo.prime = 0 then .ok none
  else
    match ht.m_table[GetIndexForKey hash ht k]? with
    | none => .error .outOfBounds
    | some chain => .ok (chain.find? fun kv => decide (k = kv.1))

/-- Lookup(key, pVal): FindNode, then when the node exists write its value
through pVal if pVal is non-null.  The location is modelled as an
Option Value (none = NULL pointer); the returned pair is the present/absent
boolean and the final contents of the location. -/
def Lookup (ht : HashTable Key Value) (k : Key) (pVal : Option Value) :
    TRes (Bool × Option Value) :=
  match FindNode hash ht k with
  | .error e => .error e
  | .ok (some n) =>
      .ok (true, match pVal with
                 | some _ => some n.2
                 | none => none)
  | .ok none => .ok (false, pVal)

/-- The chain walk of Set: advance until Equals matches, overwrite m_val of
the matching node in place; none when the key is absent from the chain. -/
def chainAssign (k : Key) (v : Value) :
    List (Key × Value) → Option (List (Key × Value))
  | [] => none
  | kv :: rest =>
      if k = kv.1 then some ((kv.1, v) :: rest)
      else (chainAssign k v rest).map (kv :: ·)

/-- The chain walk of Remove: the trailing-pointer splice, removing the first
node whose key matches; none when the key is absent from the chain. -/
def chainRemove (k : Key) :
    List (Key × Value) → Option (List (Key × Value))
  | [] => none
  | kv :: rest =>
      if k = kv.1 then some rest
      else (chainRemove k rest).map (kv :: ·)

/-- NextPrime: scan the static prime/magic table in order and return the
first entry whose prime is at least the requested number; an exhausted table
is the overflow condition, routed to Behavior::NoMemory. -/
def NextPrime (number : Nat) : TRes PrimeInfo :=
  match primeTable.find? (fun p => decide (number ≤ p.prime)) with
  | some p => .ok p
  | none => .error .noMemory

/-- One step of the rehash loop in Reallocate: compute the node's bucket
index under the new PrimeInfo and splice the node onto the head of that
chain in the new array. -/
def rehashInsert (newPrime : PrimeInfo)
    (nt : List (List (Key × Value))) (kv : Key × Value) :
    List (List (Key × Value)) :=
  nt.set (magicNumberRem (hash kv.1) newPrime)
    (kv :: nt.getD (magicNumberRem (hash kv.1) newPrime) [])

/-- Reallocate(newTableSize): round the size up through NextPrime, allocate
a zeroed bucket array of that many chains, walk every bucket of the old
array head to tail relinking each node into the new array, then commit the
new array, size descriptor and max threshold.  count is unchanged. -/
def Reallocate (ht : HashTable Key Value) (newTableSize : Nat) :
    TRes (HashTable Key Value) :=
  match NextPrime primeTable newTableSize with
  | .error e => .error e
  | .ok newPrime =>
      let newTable0 : List (List (Key × Value)) := List.replicate newPrime.prime []
      let newTable :=
        (List.range ht.m_tableSizeInfo.prime).foldl
          (fun nt i => (ht.m_table.getD i []).foldl (rehashInsert hash newPrime) nt)
          newTable0
      .ok { m_table := newTable,
            m_tableSizeInfo := newPrime,
            m_tableCount := ht.m_tableCount,
            m_tableMax := newPrime.prime * B.s_density_factor_numerator % 2 ^ 32
                            / B.s_density_factor_denominator }

/-- The Grow size computation, in unsigned (mod 2^32) arithmetic, evaluated
left to right: count * growth_num / growth_den * density_den / density_num. -/
def growNewSize (count : Nat) : Nat :=
  count * B.s_growth_factor_numerator % 2 ^ 32 / B.s_growth_factor_denominator
    * B.s_density_factor_denominator % 2 ^ 32 / B.s_density_factor_numerator

/-- The Grow size after the minimum_allocation floor. -/
def growSize (count : Nat) : Nat :=
  if growNewSize B count < B.s_minimum_allocation then B.s_minimum_allocation
  else growNewSize B count

/-- Grow: compute the target size, floor it at minimum_allocation, report
wraparound (newSize < count) through Behavior::NoMemory, else Reallocate. -/
def Grow (ht : HashTable Key Value) : TRes (HashTable Key Value) :=
  if growSize B ht.m_tableCount < ht.m_tableCount then .error .noMemory
  else Reallocate hash B primeTable ht (growSize B ht.m_tableCount)

/-- CheckGrowth: grow exactly when count has reached the max threshold. -/
def CheckGrowth (ht : HashTable Key Value) : TRes (HashTable Key Value) :=
  if ht.m_tableCount = ht.m_tableMax then Grow hash B primeTable ht
  else .ok ht

/-- Set(k, v): run the growth admission check first, then locate the bucket
in the (possibly reallocated) table and walk its chain; on a hit overwrite
the value in place and return true, on a miss link a fresh node at the chain
head, bump count and return false.  Indexing the bucket array of an
uninitialized table (the assert(prime != 0) path) is undefined behavior,
rendered as outOfBounds.  The body after the admission check is split out
as setBody so lemmas can speak about it directly. -/
def setBody (ht1 : HashTable Key Value) (k : Key) (v : Value) :
    TRes (Bool × HashTable Key Value) :=
  match ht1.m_table[GetIndexForKey hash ht1 k]? with
  | none => .error .outOfBounds
  | some chain =>
      match chainAssign k v chain with
      | some chain2 =>
          .ok (true, { ht1 with
            m_table := ht1.m_table.set (GetIndexForKey hash ht1 k) chain2 })
      | none =>
          .ok (false, { ht1 with
            m_table := ht1.m_table.set (GetIndexForKey hash ht1 k)
              ((k, v) :: chain),
            m_tableCount := ht1.m_tableCount + 1 })

/-- Set(k, v): the growth admission check, then the bucket search and
update on the resulting table. -/
def Set (ht : HashTable Key Value) (k : Key) (v : Value) :
    TRes (Bool × HashTable Key Value) :=
  match CheckGrowth hash B primeTable ht with
  | .error e => .error e
  | .ok ht1 => setBody hash ht1 k v

/-- Remove(k): index the bucket array unconditionally (no prime = 0 guard in
the source, unlike FindNode), splice out the first matching node and
decrement count, or return false when absent.  No growth check. -/
def Remove (ht : HashTable Key Value) (k : Key) :
    TRes (Bool × HashTable Key Value) :=
  match ht.m_table[GetIndexForKey hash ht k]? with
  | none => .error .outOfBounds
  | some chain =>
      match chainRemove k chain with
      | some chain2 =>
          .ok (true, { ht with
            m_table := ht.m_table.set (GetIndexForKey hash ht k) chain2,
            m_tableCount := ht.m_tableCount - 1 })
      | none => .ok (false, ht)

end Operations

/-- A keyed mutation of the table, for stating sequence properties. -/
inductive Op (Key Value : Type) where
  | set (k : Key) (v : Value)
  | remove (k : Key)
deriving DecidableEq

section Sequences

variable {Key Value : Type} [DecidableEq Key]
variable (hash : Key → Nat) (B : GrowthBehavior) (primeTable : List PrimeInfo)

/-- Apply one operation, keeping only the table state. -/
def applyOp (ht : HashTable Key Value) : Op Key Value → TRes (HashTable Key Value)
  | .set k v =>
      match Set hash B primeTable ht k v with
      | .error e => .error e
      | .ok r => .ok r.2
  | .remove k =>
      match Remove hash ht k with
      | .error e => .error e
      | .ok r => .ok r.2

/-- Run a sequence of operations, stopping at the first failure. -/
def runOps : List (Op Key Value) → HashTable Key Value → TRes (HashTable Key Value)
  | [], ht => .ok ht
  | op :: rest, ht =>
      match applyOp hash B primeTable ht op with
      | .error e => .error e
      | .ok ht2 => runOps rest ht2

/-- Run a sequence of operations; a failing operation aborts the run and the
table keeps its state from before that operation (the C failure hook fires
before any field of the table has been written).  The boolean records
whether the run aborted. -/
def runOpsK : List (Op Key Value) → HashTable Key Value → HashTable Key Value × Bool
  | [], ht => (ht, false)
  | op :: rest, ht =>
      match applyOp hash B primeTable ht op with
      | .error _ => (ht, true)
      | .ok ht2 => runOpsK rest ht2

/-- All keys stored in the table, bucket-major, head to tail in each chain. -/
def keysOf (ht : HashTable Key Value) : List Key :=
  ht.m_table.flatten.map Prod.fst

/-- The reachable-state invariant of the table: the bucket array has exactly
prime buckets; the uninitialized state has max = 0; an initialized size
descriptor comes from the prime table; every node sits in the bucket its key
hashes to; no two nodes share a key; count is the number of nodes. -/
def Inv (ht : HashTable Key Value) : Prop :=
  ht.m_table.length = ht.m_tableSizeInfo.prime
  ∧ (ht.m_tableSizeInfo.prime = 0 → ht.m_tableMax = 0)
  ∧ (ht.m_tableSizeInfo.prime ≠ 0 → ht.m_tableSizeInfo ∈ primeTable)
  ∧ (∀ i, ∀ hi : i < ht.m_table.length, ∀ kv ∈ ht.m_table.get ⟨i, hi⟩,
      magicNumberRem (hash kv.1) ht.m_tableSizeInfo = i)
  ∧ (keysOf ht).Nodup
  ∧ ht.m_tableCount = ht.m_table.flatten.length

instance (ht : HashTable Key Value) : Decidable (Inv hash primeTable ht) := by
  unfold Inv
  have : ∀ i, ∀ hi : i < ht.m_table.length,
      Decidable (∀ kv ∈ ht.m_table.get ⟨i, hi⟩,
        magicNumberRem (hash kv.1) ht.m_tableSizeInfo = i) := by
    intro i hi; infer_instance
  exact instDecidableAnd

/-- The uninitialized table satisfies the invariant. -/
theorem inv_emptyTable : Inv hash primeTable (emptyTable Key Value) := by
  refine ⟨rfl, fun _ => rfl, fun h => absurd rfl h, ?_, ?_, rfl⟩
  · intro i hi
    exact absurd hi (by simp [emptyTable])
  · simp [keysOf, emptyTable]

end Sequences

section ListToolbox

variable {A B2 : Type}

theorem getD_eq_get (l : List A) (i : Nat) (d : A) (h : i < l.length) :
    l.getD i d = l.get ⟨i, h⟩ := by
  induction l generalizing i with
  | nil => simp at h
  | cons a rest ih =>
      cases i with
      | zero => rfl
      | succ j => exact ih j (by simpa using h)

theorem getD_eq_of_len_le (l : List A) (i : Nat) (d : A) (h : l.length ≤ i) :
    l.getD i d = d := by
  induction l generalizing i with
  | nil => cases i <;> rfl
  | cons a rest ih =>
      cases i with
      | zero => simp at h
      | succ j => exact ih j (by simpa using h)

theorem getElem?_eq_getD (l : List A) (i : Nat) (d : A) (h : i < l.length) :
    l[i]? = some (l.getD i d) := by
  rw [getD_eq_get l i d h, List.getElem?_eq_getElem h]
  simp [List.get_eq_getElem]

theorem mem_of_getD (l : List A) (i : Nat) (d : A) (h : i < l.length) :
    l.getD i d ∈ l := by
  rw [getD_eq_get l i d h]
  exact l.get_mem i h

theorem getD_set_self (l : List A) (i : Nat) (x d : A) (h : i < l.length) :
    (l.set i x).getD i d = x := by
  induction l generalizing i with
  | nil => simp at h
  | cons a rest ih =>
      cases i with
      | zero => rfl
      | succ j => exact ih j (by simpa using h)

theorem getD_set_ne (l : List A) (i j : Nat) (x d : A) (h : i ≠ j) :
    (l.set i x).getD j d = l.getD j d := by
  induction l generalizing i j with
  | nil => rfl
  | cons a rest ih =>
      cases i with
      | zero => cases j with
          | zero => exact absurd rfl h
          | succ j2 => rfl
      | succ i2 =>
          cases j with
          | zero => rfl
          | succ j2 => exact ih i2 j2 (by omega)

theorem mem_flatten_of_getD {x : A} (l : List (List A)) (i : Nat)
    (h : x ∈ l.getD i []) : x ∈ l.flatten := by
  by_cases hi : i < l.length
  · exact List.mem_flatten.mpr ⟨l.getD i [], mem_of_getD l i [] hi, h⟩
  · rw [getD_eq_of_len_le l i [] (by omega)] at h
    simp at h

theorem mem_flatten_index {x : A} (l : List (List A))
    (h : x ∈ l.flatten) : ∃ i, ∃ _ : i < l.length, x ∈ l.getD i [] := by
  obtain ⟨c, hc, hxc⟩ := List.mem_flatten.mp h
  obtain ⟨⟨i, hi⟩, hget⟩ := List.mem_iff_get.mp hc
  exact ⟨i, hi, by rw [getD_eq_get l i [] hi, hget]; exact hxc⟩

theorem flatten_set_cons_perm (l : List (List A)) (i : Nat) (x : A)
    (h : i < l.length) :
    (l.set i (x :: l.getD i [])).flatten.Perm (x :: l.flatten) := by
  induction l generalizing i with
  | nil => simp at h
  | cons c rest ih =>
      cases i with
      | zero => simp
      | succ j =>
          have hj : j < rest.length := by simpa using h
          have ihr := ih j hj
          have h1 : ((c :: rest).set (j+1) (x :: (c :: rest).getD (j+1) [])).flatten
              = c ++ (rest.set j (x :: rest.getD j [])).flatten := by
            rw [List.getD_cons_succ, List.set_cons_succ, List.flatten_cons]
          rw [h1, List.flatten_cons]
          exact (ihr.append_left c).trans List.perm_middle

theorem flatten_set_removed_perm (l : List (List A)) (i : Nat)
    (pre post : List A) (a : A) (h : i < l.length)
    (hc : l.getD i [] = pre ++ a :: post) :
    (a :: (l.set i (pre ++ post)).flatten).Perm l.flatten := by
  induction l generalizing i with
  | nil => simp at h
  | cons c rest ih =>
      cases i with
      | zero =>
          have hc0 : c = pre ++ a :: post := hc
          subst hc0
          have h1 : (a :: (((pre ++ a :: post) :: rest).set 0 (pre ++ post)).flatten)
              = a :: (pre ++ (post ++ rest.flatten)) := by
            simp [List.append_assoc]
          rw [h1, List.flatten_cons, List.append_assoc]
          exact List.perm_middle.symm
      | succ j =>
          have hj : j < rest.length := by simpa using h
          have ihr := ih j hj hc
          have h1 : ((c :: rest).set (j+1) (pre ++ post)).flatten
              = c ++ (rest.set j (pre ++ post)).flatten := by
            rw [List.set_cons_succ, List.flatten_cons]
          rw [h1, List.flatten_cons]
          exact List.perm_middle.symm.trans (ihr.append_left c)

theorem map_flatten_set (f : A → B2) (l : List (List A)) (i : Nat)
    (c2 : List A) (h : i < l.length)
    (hmap : c2.map f = (l.getD i []).map f) :
    ((l.set i c2).flatten).map f = l.flatten.map f := by
  induction l generalizing i with
  | nil => simp at h
  | cons c rest ih =>
      cases i with
      | zero => simpa using congrArg (· ++ rest.flatten.map f) hmap
      | succ j =>
          have hj : j < rest.length := by simpa using h
          have ihr := ih j hj hmap
          simpa using congrArg (c.map f ++ ·) ihr

end ListToolbox

section ChainLemmas

variable {Key Value : Type} [DecidableEq Key]

theorem chainAssign_eq_none (k : Key) (v : Value) (c : List (Key × Value)) :
    chainAssign k v c = none ↔ ∀ kv ∈ c, kv.1 ≠ k := by
  induction c with
  | nil => simp [chainAssign]
  | cons kv rest ih =>
      by_cases hk : k = kv.1
      · simp [chainAssign, hk]
      · simp only [chainAssign, if_neg hk, Option.map_eq_none', ih]
        constructor
        · intro h kv2 hm
          rcases List.mem_cons.mp hm with h1 | h2
          · subst h1; exact fun he => hk he.symm
          · exact h kv2 h2
        · intro h kv2 hm
          exact h kv2 (List.mem_cons_of_mem _ hm)

theorem chainAssign_eq_some (k : Key) (v : Value) (c c2 : List (Key × Value))
    (h : chainAssign k v c = some c2) :
    ∃ pre vOld post,
      c = pre ++ (k, vOld) :: post
      ∧ (∀ kv ∈ pre, kv.1 ≠ k)
      ∧ c2 = pre ++ (k, v) :: post := by
  induction c generalizing c2 with
  | nil => simp [chainAssign] at h
  | cons kv rest ih =>
      by_cases hk : k = kv.1
      · simp only [chainAssign, if_pos hk] at h
        subst hk
        refine ⟨[], kv.2, rest, by simp, by simp, ?_⟩
        injection h with h
        simpa using h.symm
      · simp only [chainAssign, if_neg hk] at h
        rcases Option.map_eq_some'.mp h with ⟨c3, hc3, hcons⟩
        obtain ⟨pre, vOld, post, hc, hpre, hc2⟩ := ih c3 hc3
        refine ⟨kv :: pre, vOld, post, by simp [hc], ?_, by simp [← hcons, hc2]⟩
        intro kv2 hm
        rcases List.mem_cons.mp hm with h1 | h2
        · subst h1; exact fun he => hk he.symm
        · exact hpre kv2 h2

theorem chainRemove_eq_none (k : Key) (c : List (Key × Value)) :
    chainRemove k c = none ↔ ∀ kv ∈ c, kv.1 ≠ k := by
  induction c with
  | nil => simp [chainRemove]
  | cons kv rest ih =>
      by_cases hk : k = kv.1
      · simp [chainRemove, hk]
      · simp only [chainRemove, if_neg hk, Option.map_eq_none', ih]
        constructor
        · intro h kv2 hm
          rcases List.mem_cons.mp hm with h1 | h2
          · subst h1; exact fun he => hk he.symm
          · exact h kv2 h2
        · intro h kv2 hm
          exact h kv2 (List.mem_cons_of_mem _ hm)

theorem chainRemove_eq_some (k : Key) (c c2 : List (Key × Value))
    (h : chainRemove k c = some c2) :
    ∃ pre vOld post,
      c = pre ++ (k, vOld) :: post
      ∧ (∀ kv ∈ pre, kv.1 ≠ k)
      ∧ c2 = pre ++ post := by
  induction c generalizing c2 with
  | nil => simp [chainRemove] at h
  | cons kv rest ih =>
      by_cases hk : k = kv.1
      · simp only [chainRemove, if_pos hk] at h
        subst hk
        refine ⟨[], kv.2, rest, by simp, by simp, ?_⟩
        injection h with h
        simpa using h.symm
      · simp only [chainRemove, if_neg hk] at h
        rcases Option.map_eq_some'.mp h with ⟨c3, hc3, hcons⟩
        obtain ⟨pre, vOld, post, hc, hpre, hc2⟩ := ih c3 hc3
        refine ⟨kv :: pre, vOld, post, by simp [hc], ?_, by simp [← hcons, hc2]⟩
        intro kv2 hm
        rcases List.mem_cons.mp hm with h1 | h2
        · subst h1; exact fun he => hk he.symm
        · exact hpre kv2 h2

theorem chainAssign_map_fst (k : Key) (v : Value) (c c2 : List (Key × Value))
    (h : chainAssign k v c = some c2) :
    c2.map Prod.fst = c.map Prod.fst := by
  obtain ⟨pre, vOld, post, hc, _, hc2⟩ := chainAssign_eq_some k v c c2 h
  subst hc; subst hc2
  simp

theorem find?_key_eq_some (k : Key) (c : List (Key × Value))
    (kv : Key × Value) (h : c.find? (fun kv => decide (k = kv.1)) = some kv) :
    kv.1 = k ∧ kv ∈ c := by
  have h1 := List.find?_some h
  have h2 := List.mem_of_find?_eq_some h
  simp only [decide_eq_true_eq] at h1
  exact ⟨h1.symm, h2⟩

theorem find?_key_of_mem_nodup (k : Key) (v : Value) (c : List (Key × Value))
    (hm : (k, v) ∈ c) (hnd : (c.map Prod.fst).Nodup) :
    c.find? (fun kv => decide (k = kv.1)) = some (k, v) := by
  induction c with
  | nil => simp at hm
  | cons kv rest ih =>
      have hnd2 : kv.1 ∉ rest.map Prod.fst ∧ (rest.map Prod.fst).Nodup := by
        rw [List.map_cons, List.nodup_cons] at hnd
        exact hnd
      rcases List.mem_cons.mp hm with h1 | h2
      · rw [← h1]
        exact List.find?_cons_of_pos _ (by simp)
      · by_cases hk : k = kv.1
        · exfalso
          have : k ∈ rest.map Prod.fst :=
            List.mem_map.mpr ⟨(k, v), h2, rfl⟩
          have hnotin := hnd2.1
          rw [← hk] at hnotin
          exact hnotin this
        · rw [List.find?_cons_of_neg _ (by simpa using hk)]
          exact ih h2 hnd2.2

end ChainLemmas

section CoreLemmas

variable {Key Value : Type} [DecidableEq Key]
variable (hash : Key → Nat) (B : GrowthBehavior) (primeTable : List PrimeInfo)

/-- Every node of every chain sits in the bucket its key hashes to. -/
def bucketsCorrect (p : PrimeInfo) (nt : List (List (Key × Value))) : Prop :=
  ∀ i, ∀ kv ∈ nt.getD i [], magicNumberRem (hash kv.1) p = i

theorem inv_buckets (ht : HashTable Key Value)
    (hInv : Inv hash primeTable ht) :
    bucketsCorrect hash ht.m_tableSizeInfo ht.m_table := by
  intro i kv hm
  by_cases hi : i < ht.m_table.length
  · exact hInv.2.2.2.1 i hi kv (by rwa [getD_eq_get _ _ _ hi] at hm)
  · rw [getD_eq_of_len_le _ _ _ (by omega)] at hm
    simp at hm

theorem inv_of_parts (ht : HashTable Key Value)
    (h1 : ht.m_table.length = ht.m_tableSizeInfo.prime)
    (h2 : ht.m_tableSizeInfo.prime = 0 → ht.m_tableMax = 0)
    (h3 : ht.m_tableSizeInfo.prime ≠ 0 → ht.m_tableSizeInfo ∈ primeTable)
    (h4 : bucketsCorrect hash ht.m_tableSizeInfo ht.m_table)
    (h5 : (keysOf ht).Nodup)
    (h6 : ht.m_tableCount = ht.m_table.flatten.length) :
    Inv hash primeTable ht := by
  refine ⟨h1, h2, h3, ?_, h5, h6⟩
  intro i hi kv hm
  exact h4 i kv (by rwa [getD_eq_get _ _ _ hi])

theorem inv_valid_size (ht : HashTable Key Value)
    (hg : goodTable primeTable) (hInv : Inv hash primeTable ht)
    (hp : ht.m_tableSizeInfo.prime ≠ 0) :
    0 < ht.m_tableSizeInfo.prime ∧ validMagic ht.m_tableSizeInfo :=
  hg _ (hInv.2.2.1 hp)

theorem index_lt (ht : HashTable Key Value)
    (hg : goodTable primeTable) (Hh : ∀ k, hash k < 2 ^ 32)
    (hInv : Inv hash primeTable ht) (hp : ht.m_tableSizeInfo.prime ≠ 0)
    (k : Key) :
    GetIndexForKey hash ht k < ht.m_table.length := by
  obtain ⟨hpos, hval⟩ := inv_valid_size hash primeTable ht hg hInv hp
  rw [hInv.1]
  exact magicNumberRem_lt _ hval hpos _ (Hh k)

theorem mem_keysOf (ht : HashTable Key Value) (k : Key) :
    k ∈ keysOf ht ↔ ∃ v, (k, v) ∈ ht.m_table.flatten := by
  unfold keysOf
  constructor
  · intro h
    obtain ⟨kv, hm, he⟩ := List.mem_map.mp h
    refine ⟨kv.2, ?_⟩
    rw [← he]
    simpa using hm
  · intro ⟨v, hv⟩
    exact List.mem_map.mpr ⟨(k, v), hv, rfl⟩

theorem chain_nodup (ht : HashTable Key Value)
    (hInv : Inv hash primeTable ht) (i : Nat) :
    ((ht.m_table.getD i []).map Prod.fst).Nodup := by
  by_cases hi : i < ht.m_table.length
  · have hsub : (ht.m_table.getD i []).Sublist ht.m_table.flatten := by
      have hm := mem_of_getD ht.m_table i [] hi
      exact List.sublist_flatten_of_mem hm
    exact (hsub.map Prod.fst).nodup hInv.2.2.2.2.1
  · rw [getD_eq_of_len_le _ _ _ (by omega)]
    simp

/-- FindNode finds the (unique) node holding a stored key. -/
theorem findNode_present (ht : HashTable Key Value)
    (hg : goodTable primeTable) (Hh : ∀ k, hash k < 2 ^ 32)
    (hInv : Inv hash primeTable ht) (k : Key) (v : Value)
    (hmem : (k, v) ∈ ht.m_table.flatten) :
    FindNode hash ht k = .ok (some (k, v)) := by
  obtain ⟨i, hi, hkv⟩ := mem_flatten_index ht.m_table hmem
  have hp : ht.m_tableSizeInfo.prime ≠ 0 := by
    intro h0
    rw [hInv.1, h0] at hi
    omega
  have hidx : GetIndexForKey hash ht k = i := by
    have := inv_buckets hash primeTable ht hInv i (k, v) hkv
    simpa [GetIndexForKey] using this
  have hilt : GetIndexForKey hash ht k < ht.m_table.length := by omega
  unfold FindNode
  rw [if_neg hp, getElem?_eq_getD ht.m_table _ [] hilt, hidx]
  show TRes.ok ((ht.m_table.getD i []).find? fun kv => decide (k = kv.1))
      = TRes.ok (some (k, v))
  rw [find?_key_of_mem_nodup k v _ hkv (chain_nodup hash primeTable ht hInv i)]

/-- FindNode reports an absent key as absent (and never faults under the
invariant). -/
theorem findNode_absent (ht : HashTable Key Value)
    (hg : goodTable primeTable) (Hh : ∀ k, hash k < 2 ^ 32)
    (hInv : Inv hash primeTable ht) (k : Key)
    (habs : k ∉ keysOf ht) :
    FindNode hash ht k = .ok none := by
  unfold FindNode
  by_cases hp : ht.m_tableSizeInfo.prime = 0
  · rw [if_pos hp]
  · have hilt := index_lt hash primeTable ht hg Hh hInv hp k
    rw [if_neg hp, getElem?_eq_getD ht.m_table _ [] hilt]
    have : (ht.m_table.getD (GetIndexForKey hash ht k) []).find?
        (fun kv => decide (k = kv.1)) = none := by
      rw [List.find?_eq_none]
      intro kv hkv
      simp only [decide_eq_true_eq]
      intro he
      apply habs
      rw [mem_keysOf]
      refine ⟨kv.2, ?_⟩
      have hmf := mem_flatten_of_getD ht.m_table _ hkv
      rw [he]
      simpa using hmf
    show TRes.ok ((ht.m_table.getD (GetIndexForKey hash ht k) []).find?
        fun kv => decide (k = kv.1)) = TRes.ok none
    rw [this]

/-- The two FindNode outcomes under the invariant. -/
theorem findNode_cases (ht : HashTable Key Value)
    (hg : goodTable primeTable) (Hh : ∀ k, hash k < 2 ^ 32)
    (hInv : Inv hash primeTable ht) (k : Key) :
    (FindNode hash ht k = .ok none ∧ k ∉ keysOf ht)
    ∨ ∃ v, FindNode hash ht k = .ok (some (k, v)) ∧ (k, v) ∈ ht.m_table.flatten := by
  by_cases hk : k ∈ keysOf ht
  · obtain ⟨v, hv⟩ := (mem_keysOf ht k).mp hk
    exact Or.inr ⟨v, findNode_present hash primeTable ht hg Hh hInv k v hv, hv⟩
  · exact Or.inl ⟨findNode_absent hash primeTable ht hg Hh hInv k hk, hk⟩

end CoreLemmas

section ReallocateLemmas

variable {Key Value : Type} [DecidableEq Key]
variable (hash : Key → Nat) (B : GrowthBehavior) (primeTable : List PrimeInfo)

theorem flatten_replicate_nil {A : Type} (n : Nat) :
    (List.replicate n ([] : List A)).flatten = [] := by
  induction n with
  | zero => rfl
  | succ m ih => simpa using ih

theorem bucketsCorrect_replicate (p : PrimeInfo) (n : Nat) :
    bucketsCorrect hash p (List.replicate n ([] : List (Key × Value))) := by
  intro i kv hm
  by_cases hi : i < n
  · rw [getD_eq_get _ _ _ (by simpa using hi)] at hm
    simp at hm
  · rw [getD_eq_of_len_le _ _ _ (by simpa using hi)] at hm
    simp at hm

theorem rehashInsert_length (np : PrimeInfo)
    (nt : List (List (Key × Value))) (kv : Key × Value) :
    (rehashInsert hash np nt kv).length = nt.length :=
  List.length_set _ _ _

theorem rehashInsert_flatten_perm (np : PrimeInfo)
    (hpos : 0 < np.prime) (hval : validMagic np)
    (Hh : ∀ k, hash k < 2 ^ 32)
    (nt : List (List (Key × Value))) (kv : Key × Value)
    (hlen : nt.length = np.prime) :
    (rehashInsert hash np nt kv).flatten.Perm (kv :: nt.flatten) := by
  apply flatten_set_cons_perm
  rw [hlen]
  exact magicNumberRem_lt _ hval hpos _ (Hh kv.1)

theorem rehashInsert_buckets (np : PrimeInfo)
    (nt : List (List (Key × Value))) (kv : Key × Value)
    (hb : bucketsCorrect hash np nt) :
    bucketsCorrect hash np (rehashInsert hash np nt kv) := by
  intro j kv2 hm
  unfold rehashInsert at hm
  by_cases hj : magicNumberRem (hash kv.1) np = j
  · subst hj
    by_cases hlt : magicNumberRem (hash kv.1) np < nt.length
    · rw [getD_set_self _ _ _ _ hlt] at hm
      rcases List.mem_cons.mp hm with h1 | h2
      · rw [h1]
      · exact hb _ kv2 h2
    · rw [List.set_eq_of_length_le (by omega)] at hm
      exact hb _ kv2 hm
  · rw [getD_set_ne _ _ _ _ _ hj] at hm
    exact hb j kv2 hm

theorem rehash_chain (np : PrimeInfo)
    (hpos : 0 < np.prime) (hval : validMagic np)
    (Hh : ∀ k, hash k < 2 ^ 32) (c : List (Key × Value)) :
    ∀ nt : List (List (Key × Value)), nt.length = np.prime →
      bucketsCorrect hash np nt →
      (c.foldl (rehashInsert hash np) nt).length = np.prime
      ∧ bucketsCorrect hash np (c.foldl (rehashInsert hash np) nt)
      ∧ (c.foldl (rehashInsert hash np) nt).flatten.Perm (c ++ nt.flatten) := by
  induction c with
  | nil =>
      intro nt hlen hb
      exact ⟨hlen, hb, by simp⟩
  | cons kv c ih =>
      intro nt hlen hb
      have hlen1 : (rehashInsert hash np nt kv).length = np.prime := by
        rw [rehashInsert_length]; exact hlen
      have hb1 := rehashInsert_buckets hash np nt kv hb
      obtain ⟨l1, l2, l3⟩ := ih (rehashInsert hash np nt kv) hlen1 hb1
      refine ⟨by simpa using l1, by simpa using l2, ?_⟩
      have hstep := rehashInsert_flatten_perm hash np hpos hval Hh nt kv hlen
      have h1 : ((kv :: c).foldl (rehashInsert hash np) nt).flatten.Perm
          (c ++ (rehashInsert hash np nt kv).flatten) := by simpa using l3
      refine h1.trans ?_
      refine ((hstep.append_left c).trans ?_)
      exact List.perm_middle

theorem rehash_buckets_fold (np : PrimeInfo)
    (hpos : 0 < np.prime) (hval : validMagic np)
    (Hh : ∀ k, hash k < 2 ^ 32) (cs : List (List (Key × Value))) :
    ∀ nt : List (List (Key × Value)), nt.length = np.prime →
      bucketsCorrect hash np nt →
      (cs.foldl (fun nt c => c.foldl (rehashInsert hash np) nt) nt).length = np.prime
      ∧ bucketsCorrect hash np
          (cs.foldl (fun nt c => c.foldl (rehashInsert hash np) nt) nt)
      ∧ (cs.foldl (fun nt c => c.foldl (rehashInsert hash np) nt) nt).flatten.Perm
          (cs.flatten ++ nt.flatten) := by
  induction cs with
  | nil =>
      intro nt hlen hb
      exact ⟨hlen, hb, by simp⟩
  | cons c cs ih =>
      intro nt hlen hb
      obtain ⟨s1, s2, s3⟩ := rehash_chain hash np hpos hval Hh c nt hlen hb
      obtain ⟨l1, l2, l3⟩ := ih (c.foldl (rehashInsert hash np) nt) s1 s2
      refine ⟨by simpa using l1, by simpa using l2, ?_⟩
      have h1 : ((c :: cs).foldl (fun nt c => c.foldl (rehashInsert hash np) nt) nt).flatten.Perm
          (cs.flatten ++ (c.foldl (rehashInsert hash np) nt).flatten) := by
        simpa using l3
      have e2 : (c :: cs).flatten ++ nt.flatten = (c ++ cs.flatten) ++ nt.flatten := by
        rw [List.flatten_cons]
      rw [e2]
      refine h1.trans ?_
      refine ((s3.append_left cs.flatten).trans ?_)
      have e1 : cs.flatten ++ (c ++ nt.flatten) = (cs.flatten ++ c) ++ nt.flatten :=
        (List.append_assoc _ _ _).symm
      rw [e1]
      exact List.perm_append_comm.append_right nt.flatten

/-- Folding over bucket indexes 0..length-1 with getD reads is folding over
the buckets themselves. -/
theorem range_fold_eq {A B2 : Type} (l : List (List A)) (f : B2 → A → B2) :
    ∀ z : B2,
      (List.range l.length).foldl (fun acc i => (l.getD i []).foldl f acc) z
        = l.foldl (fun acc c => c.foldl f acc) z := by
  induction l with
  | nil => intro z; rfl
  | cons c rest ih =>
      intro z
      have h1 : List.range (c :: rest).length
          = 0 :: (List.range rest.length).map Nat.succ := by
        simpa using List.range_succ_eq_map rest.length
      rw [h1]
      show (List.map Nat.succ (List.range rest.length)).foldl
          (fun acc i => ((c :: rest).getD i []).foldl f acc) (c.foldl f z)
        = rest.foldl (fun acc c2 => c2.foldl f acc) (c.foldl f z)
      rw [List.foldl_map]
      exact ih (c.foldl f z)

/-- What a successful Reallocate produces: the invariant again, the same
nodes (as a multiset), the same count, and a size descriptor drawn from the
prime table. -/
theorem reallocate_spec (ht ht2 : HashTable Key Value)
    (hg : goodTable primeTable) (Hh : ∀ k, hash k < 2 ^ 32)
    (hInv : Inv hash primeTable ht) (n : Nat)
    (h : Reallocate hash B primeTable ht n = .ok ht2) :
    Inv hash primeTable ht2
    ∧ ht2.m_table.flatten.Perm ht.m_table.flatten
    ∧ ht2.m_tableCount = ht.m_tableCount
    ∧ ht2.m_tableSizeInfo.prime ≠ 0
    ∧ ht2.m_tableSizeInfo ∈ primeTable := by
  unfold Reallocate at h
  cases hnp : NextPrime primeTable n with
  | error e => rw [hnp] at h; exact absurd h (by simp)
  | ok np =>
      rw [hnp] at h
      have hmem : np ∈ primeTable := by
        unfold NextPrime at hnp
        cases hf : primeTable.find? (fun p => decide (n ≤ p.prime)) with
        | none => rw [hf] at hnp; exact absurd hnp (by simp)
        | some q =>
            rw [hf] at hnp
            have : q = np := by
              have := hnp
              injection this
            rw [← this]
            exact List.mem_of_find?_eq_some hf
      obtain ⟨hpos, hval⟩ := hg np hmem
      have hrep_len : (List.replicate np.prime ([] : List (Key × Value))).length
          = np.prime := by simp
      have hrep_b : bucketsCorrect hash np
          (List.replicate np.prime ([] : List (Key × Value))) :=
        bucketsCorrect_replicate hash np np.prime
      have hfold := rehash_buckets_fold hash np hpos hval Hh ht.m_table
        (List.replicate np.prime []) hrep_len hrep_b
      obtain ⟨f1, f2, f3⟩ := hfold
      have hrange : (List.range ht.m_tableSizeInfo.prime).foldl
          (fun nt i => (ht.m_table.getD i []).foldl (rehashInsert hash np) nt)
          (List.replicate np.prime [])
          = ht.m_table.foldl (fun nt c => c.foldl (rehashInsert hash np) nt)
            (List.replicate np.prime []) := by
        rw [← hInv.1]
        exact range_fold_eq ht.m_table (rehashInsert hash np) _
      injection h with hrec
      have htab : ht2.m_table = ht.m_table.foldl
          (fun nt c => c.foldl (rehashInsert hash np) nt)
          (List.replicate np.prime []) := by
        rw [← hrec]
        exact hrange
      have hsi : ht2.m_tableSizeInfo = np := by rw [← hrec]
      have hcnt : ht2.m_tableCount = ht.m_tableCount := by rw [← hrec]
      rw [flatten_replicate_nil, List.append_nil] at f3
      have hperm : ht2.m_table.flatten.Perm ht.m_table.flatten := by
        rw [htab]
        exact f3
      have hp2 : ht2.m_tableSizeInfo.prime ≠ 0 := by
        rw [hsi]
        omega
      refine ⟨?_, hperm, hcnt, hp2, by rw [hsi]; exact hmem⟩
      apply inv_of_parts
      · rw [htab, hsi]
        exact f1
      · intro h0
        exact absurd h0 hp2
      · intro _
        rw [hsi]
        exact hmem
      · rw [htab, hsi]
        exact f2
      · have hpk : (keysOf ht2).Perm (keysOf ht) := hperm.map Prod.fst
        exact hpk.symm.nodup hInv.2.2.2.2.1
      · rw [hcnt, hInv.2.2.2.2.2]
        exact hperm.length_eq.symm

end ReallocateLemmas

section OperationLemmas

variable {Key Value : Type} [DecidableEq Key]
variable (hash : Key → Nat) (B : GrowthBehavior) (primeTable : List PrimeInfo)

/-- In the uninitialized state the invariant forces the empty shape. -/
theorem inv_zero_state (ht : HashTable Key Value)
    (hInv : Inv hash primeTable ht) (hp : ht.m_tableSizeInfo.prime = 0) :
    ht.m_table = [] ∧ ht.m_tableCount = 0 ∧ ht.m_tableMax = 0 := by
  have hlen : ht.m_table.length = 0 := by rw [hInv.1, hp]
  have htab : ht.m_table = [] := List.length_eq_zero.mp hlen
  refine ⟨htab, ?_, hInv.2.1 hp⟩
  rw [hInv.2.2.2.2.2, htab]
  rfl

/-- A successful Grow is a successful Reallocate at the computed size, and
it preserves the invariant, the nodes and the count. -/
theorem grow_ok_spec (ht ht2 : HashTable Key Value)
    (hg : goodTable primeTable) (Hh : ∀ k, hash k < 2 ^ 32)
    (hInv : Inv hash primeTable ht)
    (h : Grow hash B primeTable ht = .ok ht2) :
    Inv hash primeTable ht2
    ∧ ht2.m_table.flatten.Perm ht.m_table.flatten
    ∧ ht2.m_tableCount = ht.m_tableCount
    ∧ ht2.m_tableSizeInfo.prime ≠ 0 := by
  unfold Grow at h
  by_cases hlt : growSize B ht.m_tableCount < ht.m_tableCount
  · rw [if_pos hlt] at h
    exact absurd h (by simp)
  · rw [if_neg hlt] at h
    obtain ⟨h1, h2, h3, h4, _⟩ :=
      reallocate_spec hash B primeTable ht ht2 hg Hh hInv _ h
    exact ⟨h1, h2, h3, h4⟩

/-- A successful CheckGrowth yields an invariant-satisfying, initialized
table holding exactly the nodes of the input, with the same count; when no
growth is due it is the identity. -/
theorem checkGrowth_ok_spec (ht ht1 : HashTable Key Value)
    (hg : goodTable primeTable) (Hh : ∀ k, hash k < 2 ^ 32)
    (hInv : Inv hash primeTable ht)
    (h : CheckGrowth hash B primeTable ht = .ok ht1) :
    Inv hash primeTable ht1
    ∧ ht1.m_table.flatten.Perm ht.m_table.flatten
    ∧ ht1.m_tableCount = ht.m_tableCount
    ∧ ht1.m_tableSizeInfo.prime ≠ 0 := by
  unfold CheckGrowth at h
  by_cases hc : ht.m_tableCount = ht.m_tableMax
  · rw [if_pos hc] at h
    exact grow_ok_spec hash B primeTable ht ht1 hg Hh hInv h
  · rw [if_neg hc] at h
    have hid : ht1 = ht := by
      injection h with h2
      exact h2.symm
    subst hid
    refine ⟨hInv, List.Perm.refl _, rfl, ?_⟩
    intro hp
    obtain ⟨_, hcnt, hmax⟩ := inv_zero_state hash primeTable ht1 hInv hp
    exact hc (by rw [hcnt, hmax])

/-- The key misses its chain exactly when it is absent from the table. -/
theorem chain_miss_iff (ht1 : HashTable Key Value)
    (hg : goodTable primeTable) (Hh : ∀ k, hash k < 2 ^ 32)
    (hInv : Inv hash primeTable ht1) (hp : ht1.m_tableSizeInfo.prime ≠ 0)
    (k : Key) :
    (∀ kv ∈ ht1.m_table.getD (GetIndexForKey hash ht1 k) [], kv.1 ≠ k)
      ↔ k ∉ keysOf ht1 := by
  constructor
  · intro hmiss hk
    obtain ⟨v, hv⟩ := (mem_keysOf ht1 k).mp hk
    obtain ⟨i, hi, hkv⟩ := mem_flatten_index ht1.m_table hv
    have hidx : GetIndexForKey hash ht1 k = i := by
      have := inv_buckets hash primeTable ht1 hInv i (k, v) hkv
      simpa [GetIndexForKey] using this
    rw [hidx] at hmiss
    exact hmiss (k, v) hkv rfl
  · intro habs kv hkv he
    apply habs
    rw [mem_keysOf]
    refine ⟨kv.2, ?_⟩
    have hmf := mem_flatten_of_getD ht1.m_table _ hkv
    rw [← he]
    simpa using hmf

/-- Unfolding setBody once the bucket read is known. -/
theorem setBody_eq_chain (ht1 : HashTable Key Value) (k : Key) (v : Value)
    (chain : List (Key × Value))
    (h : ht1.m_table[GetIndexForKey hash ht1 k]? = some chain) :
    setBody hash ht1 k v =
      match chainAssign k v chain with
      | some chain2 =>
          .ok (true, { ht1 with
            m_table := ht1.m_table.set (GetIndexForKey hash ht1 k) chain2 })
      | none =>
          .ok (false, { ht1 with
            m_table := ht1.m_table.set (GetIndexForKey hash ht1 k)
              ((k, v) :: chain),
            m_tableCount := ht1.m_tableCount + 1 }) := by
  unfold setBody
  rw [h]

/-- setBody on a miss: the new node is linked as the chain head, count goes
up by one, the rest of the table is untouched, the invariant is preserved. -/
theorem setBody_miss (ht1 : HashTable Key Value)
    (hg : goodTable primeTable) (Hh : ∀ k, hash k < 2 ^ 32)
    (hInv : Inv hash primeTable ht1) (hp : ht1.m_tableSizeInfo.prime ≠ 0)
    (k : Key) (v : Value) (hmiss : k ∉ keysOf ht1) :
    ∃ ht2, setBody hash ht1 k v = .ok (false, ht2)
    ∧ ht2.m_table = ht1.m_table.set (GetIndexForKey hash ht1 k)
        ((k, v) :: ht1.m_table.getD (GetIndexForKey hash ht1 k) [])
    ∧ ht2.m_tableSizeInfo = ht1.m_tableSizeInfo
    ∧ ht2.m_tableMax = ht1.m_tableMax
    ∧ ht2.m_tableCount = ht1.m_tableCount + 1
    ∧ ht2.m_table.flatten.Perm ((k, v) :: ht1.m_table.flatten)
    ∧ (k, v) ∈ ht2.m_table.flatten
    ∧ Inv hash primeTable ht2 := by
  have hilt := index_lt hash primeTable ht1 hg Hh hInv hp k
  have hnone : chainAssign k v
      (ht1.m_table.getD (GetIndexForKey hash ht1 k) []) = none := by
    rw [chainAssign_eq_none]
    exact (chain_miss_iff hash primeTable ht1 hg Hh hInv hp k).mpr hmiss
  have hbody := setBody_eq_chain hash ht1 k v _
    (getElem?_eq_getD ht1.m_table _ [] hilt)
  rw [hnone] at hbody
  have hperm : (ht1.m_table.set (GetIndexForKey hash ht1 k)
      ((k, v) :: ht1.m_table.getD (GetIndexForKey hash ht1 k) [])).flatten.Perm
      ((k, v) :: ht1.m_table.flatten) :=
    flatten_set_cons_perm ht1.m_table (GetIndexForKey hash ht1 k) (k, v) hilt
  refine ⟨_, hbody, rfl, rfl, rfl, rfl, hperm, ?_, ?_⟩
  · apply mem_flatten_of_getD _ (GetIndexForKey hash ht1 k)
    show (k, v) ∈ (ht1.m_table.set (GetIndexForKey hash ht1 k)
        ((k, v) :: ht1.m_table.getD (GetIndexForKey hash ht1 k) [])).getD
        (GetIndexForKey hash ht1 k) []
    rw [getD_set_self _ _ _ _ hilt]
    exact List.mem_cons_self _ _
  · apply inv_of_parts
    · show (ht1.m_table.set (GetIndexForKey hash ht1 k)
          ((k, v) :: ht1.m_table.getD (GetIndexForKey hash ht1 k) [])).length
        = ht1.m_tableSizeInfo.prime
      rw [List.length_set]
      exact hInv.1
    · intro h0
      exact absurd h0 hp
    · intro _
      exact hInv.2.2.1 hp
    · intro j kv hm
      show magicNumberRem (hash kv.1) ht1.m_tableSizeInfo = j
      by_cases hj : GetIndexForKey hash ht1 k = j
      · subst hj
        rw [getD_set_self _ _ _ _ hilt] at hm
        rcases List.mem_cons.mp hm with h1 | h2
        · rw [h1]
          rfl
        · exact inv_buckets hash primeTable ht1 hInv _ kv h2
      · rw [getD_set_ne _ _ _ _ _ hj] at hm
        exact inv_buckets hash primeTable ht1 hInv j kv hm
    · show ((ht1.m_table.set (GetIndexForKey hash ht1 k)
          ((k, v) :: ht1.m_table.getD (GetIndexForKey hash ht1 k) [])).flatten.map
            Prod.fst).Nodup
      have hkp := hperm.map Prod.fst
      apply hkp.symm.nodup
      rw [List.map_cons, List.nodup_cons]
      exact ⟨hmiss, hInv.2.2.2.2.1⟩
    · show ht1.m_tableCount + 1
        = (ht1.m_table.set (GetIndexForKey hash ht1 k)
            ((k, v) :: ht1.m_table.getD (GetIndexForKey hash ht1 k) [])).flatten.length
      rw [hperm.length_eq, List.length_cons, hInv.2.2.2.2.2]

/-- setBody on a hit: the first matching node's value is overwritten in
place, count and all other nodes are untouched, the invariant is
preserved. -/
theorem setBody_hit (ht1 : HashTable Key Value)
    (hg : goodTable primeTable) (Hh : ∀ k, hash k < 2 ^ 32)
    (hInv : Inv hash primeTable ht1) (hp : ht1.m_tableSizeInfo.prime ≠ 0)
    (k : Key) (v : Value) (hhit : k ∈ keysOf ht1) :
    ∃ ht2 pre vOld post,
      setBody hash ht1 k v = .ok (true, ht2)
    ∧ ht1.m_table.getD (GetIndexForKey hash ht1 k) [] = pre ++ (k, vOld) :: post
    ∧ (∀ kv ∈ pre, kv.1 ≠ k)
    ∧ ht2.m_table = ht1.m_table.set (GetIndexForKey hash ht1 k)
        (pre ++ (k, v) :: post)
    ∧ ht2.m_tableSizeInfo = ht1.m_tableSizeInfo
    ∧ ht2.m_tableMax = ht1.m_tableMax
    ∧ ht2.m_tableCount = ht1.m_tableCount
    ∧ keysOf ht2 = keysOf ht1
    ∧ (k, v) ∈ ht2.m_table.flatten
    ∧ Inv hash primeTable ht2 := by
  have hilt := index_lt hash primeTable ht1 hg Hh hInv hp k
  have hsome : ∃ c2, chainAssign k v
      (ht1.m_table.getD (GetIndexForKey hash ht1 k) []) = some c2 := by
    cases hca : chainAssign k v
        (ht1.m_table.getD (GetIndexForKey hash ht1 k) []) with
    | none =>
        exfalso
        exact ((chain_miss_iff hash primeTable ht1 hg Hh hInv hp k).mp
          ((chainAssign_eq_none k v _).mp hca)) hhit
    | some c2 => exact ⟨c2, rfl⟩
  obtain ⟨c2, hc2⟩ := hsome
  obtain ⟨pre, vOld, post, hchain, hpre, hc2eq⟩ :=
    chainAssign_eq_some k v _ c2 hc2
  have hbody := setBody_eq_chain hash ht1 k v _
    (getElem?_eq_getD ht1.m_table _ [] hilt)
  rw [hc2] at hbody
  have hmapfst : c2.map Prod.fst
      = (ht1.m_table.getD (GetIndexForKey hash ht1 k) []).map Prod.fst :=
    chainAssign_map_fst k v _ c2 hc2
  have hkeyseq : ((ht1.m_table.set (GetIndexForKey hash ht1 k) c2).flatten.map
        Prod.fst)
      = (ht1.m_table.flatten.map Prod.fst) :=
    map_flatten_set Prod.fst ht1.m_table _ c2 hilt hmapfst
  refine ⟨_, pre, vOld, post, hbody, hchain, hpre, by rw [hc2eq], rfl, rfl, rfl,
    hkeyseq, ?_, ?_⟩
  · apply mem_flatten_of_getD _ (GetIndexForKey hash ht1 k)
    show (k, v) ∈ (ht1.m_table.set (GetIndexForKey hash ht1 k) c2).getD
        (GetIndexForKey hash ht1 k) []
    rw [getD_set_self _ _ _ _ hilt, hc2eq]
    exact List.mem_append_right _ (List.mem_cons_self _ _)
  · apply inv_of_parts
    · show (ht1.m_table.set (GetIndexForKey hash ht1 k) c2).length
        = ht1.m_tableSizeInfo.prime
      rw [List.length_set]
      exact hInv.1
    · intro h0
      exact absurd h0 hp
    · intro _
      exact hInv.2.2.1 hp
    · intro j kv hm
      show magicNumberRem (hash kv.1) ht1.m_tableSizeInfo = j
      by_cases hj : GetIndexForKey hash ht1 k = j
      · subst hj
        rw [getD_set_self _ _ _ _ hilt, hc2eq] at hm
        have hkvch : kv ∈ ht1.m_table.getD (GetIndexForKey hash ht1 k) []
            ∨ kv = (k, v) := by
          rcases List.mem_append.mp hm with h1 | h2
          · exact Or.inl (by rw [hchain]; exact List.mem_append_left _ h1)
          · rcases List.mem_cons.mp h2 with h3 | h4
            · exact Or.inr h3
            · exact Or.inl (by
                rw [hchain]
                exact List.mem_append_right _ (List.mem_cons_of_mem _ h4))
        rcases hkvch with h1 | h2
        · exact inv_buckets hash primeTable ht1 hInv _ kv h1
        · rw [h2]
          rfl
      · rw [getD_set_ne _ _ _ _ _ hj] at hm
        exact inv_buckets hash primeTable ht1 hInv j kv hm
    · show ((ht1.m_table.set (GetIndexForKey hash ht1 k) c2).flatten.map
          Prod.fst).Nodup
      rw [hkeyseq]
      exact hInv.2.2.2.2.1
    · show ht1.m_tableCount
        = (ht1.m_table.set (GetIndexForKey hash ht1 k) c2).flatten.length
      have hlen : (ht1.m_table.set (GetIndexForKey hash ht1 k) c2).flatten.length
          = ht1.m_table.flatten.length := by
        have h1 := congrArg List.length hkeyseq
        rwa [List.length_map, List.length_map] at h1
      rw [hlen]
      exact hInv.2.2.2.2.2

end OperationLemmas

section RemoveAndRunLemmas

variable {Key Value : Type} [DecidableEq Key]
variable (hash : Key → Nat) (B : GrowthBehavior) (primeTable : List PrimeInfo)

/-- Unfolding Remove once the bucket read is known. -/
theorem remove_eq_chain (ht : HashTable Key Value) (k : Key)
    (chain : List (Key × Value))
    (h : ht.m_table[GetIndexForKey hash ht k]? = some chain) :
    Remove hash ht k =
      match chainRemove k chain with
      | some chain2 =>
          .ok (true, { ht with
            m_table := ht.m_table.set (GetIndexForKey hash ht k) chain2,
            m_tableCount := ht.m_tableCount - 1 })
      | none => .ok (false, ht) := by
  unfold Remove
  rw [h]

/-- Remove of an absent key returns false and the table untouched. -/
theorem remove_absent (ht : HashTable Key Value)
    (hg : goodTable primeTable) (Hh : ∀ k, hash k < 2 ^ 32)
    (hInv : Inv hash primeTable ht) (hp : ht.m_tableSizeInfo.prime ≠ 0)
    (k : Key) (habs : k ∉ keysOf ht) :
    Remove hash ht k = .ok (false, ht) := by
  have hilt := index_lt hash primeTable ht hg Hh hInv hp k
  have hnone : chainRemove k
      (ht.m_table.getD (GetIndexForKey hash ht k) []) = none := by
    rw [chainRemove_eq_none]
    exact (chain_miss_iff hash primeTable ht hg Hh hInv hp k).mpr habs
  have hbody := remove_eq_chain hash ht k _
    (getElem?_eq_getD ht.m_table _ [] hilt)
  rw [hnone] at hbody
  exact hbody

/-- Remove of a present key splices out precisely the matching node (first
in its chain), decrements count, touches nothing else, and preserves the
invariant. -/
theorem remove_present (ht : HashTable Key Value)
    (hg : goodTable primeTable) (Hh : ∀ k, hash k < 2 ^ 32)
    (hInv : Inv hash primeTable ht) (hp : ht.m_tableSizeInfo.prime ≠ 0)
    (k : Key) (v : Value) (hmem : (k, v) ∈ ht.m_table.flatten) :
    ∃ pre post,
      ht.m_table.getD (GetIndexForKey hash ht k) [] = pre ++ (k, v) :: post
      ∧ (∀ kv ∈ pre, kv.1 ≠ k)
      ∧ Remove hash ht k = .ok (true,
          { m_table := ht.m_table.set (GetIndexForKey hash ht k) (pre ++ post),
            m_tableSizeInfo := ht.m_tableSizeInfo,
            m_tableCount := ht.m_tableCount - 1,
            m_tableMax := ht.m_tableMax })
      ∧ ((k, v) :: (ht.m_table.set (GetIndexForKey hash ht k)
            (pre ++ post)).flatten).Perm ht.m_table.flatten
      ∧ Inv hash primeTable
          { m_table := ht.m_table.set (GetIndexForKey hash ht k) (pre ++ post),
            m_tableSizeInfo := ht.m_tableSizeInfo,
            m_tableCount := ht.m_tableCount - 1,
            m_tableMax := ht.m_tableMax } := by
  have hilt := index_lt hash primeTable ht hg Hh hInv hp k
  obtain ⟨i, hi, hkv⟩ := mem_flatten_index ht.m_table hmem
  have hidx : GetIndexForKey hash ht k = i := by
    have := inv_buckets hash primeTable ht hInv i (k, v) hkv
    simpa [GetIndexForKey] using this
  rw [← hidx] at hkv
  have hsome : ∃ c2, chainRemove k
      (ht.m_table.getD (GetIndexForKey hash ht k) []) = some c2 := by
    cases hca : chainRemove k
        (ht.m_table.getD (GetIndexForKey hash ht k) []) with
    | none =>
        exfalso
        exact ((chainRemove_eq_none k _).mp hca) (k, v) hkv rfl
    | some c2 => exact ⟨c2, rfl⟩
  obtain ⟨c2, hc2⟩ := hsome
  obtain ⟨pre, vOld, post, hchain, hpre, hc2eq⟩ := chainRemove_eq_some k _ c2 hc2
  have hnd := chain_nodup hash primeTable ht hInv (GetIndexForKey hash ht k)
  have hvOld : vOld = v := by
    rw [hchain] at hkv hnd
    rcases List.mem_append.mp hkv with h1 | h2
    · exact absurd rfl (hpre (k, v) h1)
    · rcases List.mem_cons.mp h2 with h3 | h4
      · exact (Prod.mk.injEq _ _ _ _ |>.mp h3).2.symm
      · exfalso
        rw [List.map_append, List.map_cons] at hnd
        have hknotin : (k : Key) ∉ (post.map Prod.fst) := by
          have h5 := (List.nodup_append.mp hnd).2.1
          exact (List.nodup_cons.mp h5).1
        exact hknotin (List.mem_map.mpr ⟨(k, v), h4, rfl⟩)
  subst hvOld
  have hbody := remove_eq_chain hash ht k _
    (getElem?_eq_getD ht.m_table _ [] hilt)
  rw [hc2] at hbody
  have hperm : ((k, vOld) :: (ht.m_table.set (GetIndexForKey hash ht k)
      (pre ++ post)).flatten).Perm ht.m_table.flatten :=
    flatten_set_removed_perm ht.m_table _ pre post (k, vOld) hilt hchain
  refine ⟨pre, post, hchain, hpre, by rw [← hc2eq]; exact hbody, hperm, ?_⟩
  apply inv_of_parts
  · show (ht.m_table.set (GetIndexForKey hash ht k) (pre ++ post)).length
      = ht.m_tableSizeInfo.prime
    rw [List.length_set]
    exact hInv.1
  · intro h0
    exact absurd h0 hp
  · intro _
    exact hInv.2.2.1 hp
  · intro j kv hm
    show magicNumberRem (hash kv.1) ht.m_tableSizeInfo = j
    by_cases hj : GetIndexForKey hash ht k = j
    · subst hj
      rw [getD_set_self _ _ _ _ hilt] at hm
      have hkvch : kv ∈ ht.m_table.getD (GetIndexForKey hash ht k) [] := by
        rw [hchain]
        rcases List.mem_append.mp hm with h1 | h2
        · exact List.mem_append_left _ h1
        · exact List.mem_append_right _ (List.mem_cons_of_mem _ h2)
      exact inv_buckets hash primeTable ht hInv _ kv hkvch
    · rw [getD_set_ne _ _ _ _ _ hj] at hm
      exact inv_buckets hash primeTable ht hInv j kv hm
  · show ((ht.m_table.set (GetIndexForKey hash ht k)
        (pre ++ post)).flatten.map Prod.fst).Nodup
    have hkp := hperm.map Prod.fst
    have := hkp.symm.nodup hInv.2.2.2.2.1
    rw [List.map_cons] at this
    exact (List.nodup_cons.mp this).2
  · show ht.m_tableCount - 1
      = (ht.m_table.set (GetIndexForKey hash ht k) (pre ++ post)).flatten.length
    have hlen := hperm.length_eq
    rw [List.length_cons] at hlen
    have hcnt := hInv.2.2.2.2.2
    omega

/-- Any successful Set leaves the invariant intact and the written pair
stored. -/
theorem set_ok_spec (ht ht2 : HashTable Key Value) (k : Key) (v : Value)
    (b : Bool)
    (hg : goodTable primeTable) (Hh : ∀ k, hash k < 2 ^ 32)
    (hInv : Inv hash primeTable ht)
    (h : Set hash B primeTable ht k v = .ok (b, ht2)) :
    Inv hash primeTable ht2 ∧ (k, v) ∈ ht2.m_table.flatten := by
  unfold Set at h
  cases hcg : CheckGrowth hash B primeTable ht with
  | error e =>
      rw [hcg] at h
      exact absurd h (by simp)
  | ok ht1 =>
      rw [hcg] at h
      replace h : setBody hash ht1 k v = .ok (b, ht2) := h
      obtain ⟨hInv1, _, _, hp1⟩ :=
        checkGrowth_ok_spec hash B primeTable ht ht1 hg Hh hInv hcg
      by_cases hk : k ∈ keysOf ht1
      · obtain ⟨ht2h, pre, vOld, post, hbody, _, _, _, _, _, _, _, hmem2, hInv2⟩ :=
          setBody_hit hash primeTable ht1 hg Hh hInv1 hp1 k v hk
        rw [hbody] at h
        have : ht2h = ht2 := by
          injection h with h2
          exact (Prod.mk.injEq _ _ _ _ |>.mp h2).2
        rw [← this]
        exact ⟨hInv2, hmem2⟩
      · obtain ⟨ht2m, hbody, _, _, _, _, _, hmem2, hInv2⟩ :=
          setBody_miss hash primeTable ht1 hg Hh hInv1 hp1 k v hk
        rw [hbody] at h
        have : ht2m = ht2 := by
          injection h with h2
          exact (Prod.mk.injEq _ _ _ _ |>.mp h2).2
        rw [← this]
        exact ⟨hInv2, hmem2⟩

/-- Any successful Remove leaves the invariant intact. -/
theorem remove_ok_inv (ht ht2 : HashTable Key Value) (k : Key) (b : Bool)
    (hg : goodTable primeTable) (Hh : ∀ k, hash k < 2 ^ 32)
    (hInv : Inv hash primeTable ht)
    (h : Remove hash ht k = .ok (b, ht2)) :
    Inv hash primeTable ht2 := by
  by_cases hp : ht.m_tableSizeInfo.prime = 0
  · exfalso
    obtain ⟨htab, _, _⟩ := inv_zero_state hash primeTable ht hInv hp
    unfold Remove at h
    rw [htab] at h
    simp at h
  · by_cases hk : k ∈ keysOf ht
    · obtain ⟨v, hv⟩ := (mem_keysOf ht k).mp hk
      obtain ⟨pre, post, _, _, hrem, _, hInv2⟩ :=
        remove_present hash primeTable ht hg Hh hInv hp k v hv
      rw [hrem] at h
      have h2eq : ({ m_table := ht.m_table.set (GetIndexForKey hash ht k) (pre ++ post),
                     m_tableSizeInfo := ht.m_tableSizeInfo,
                     m_tableCount := ht.m_tableCount - 1,
                     m_tableMax := ht.m_tableMax } : HashTable Key Value) = ht2 := by
        injection h with h2
        exact (Prod.mk.injEq _ _ _ _ |>.mp h2).2
      rw [← h2eq]
      exact hInv2
    · rw [remove_absent hash primeTable ht hg Hh hInv hp k hk] at h
      have : ht = ht2 := by
        injection h with h2
        exact (Prod.mk.injEq _ _ _ _ |>.mp h2).2
      rw [← this]
      exact hInv

/-- Running any operation sequence from an invariant state ends (when it
succeeds) in an invariant state. -/
theorem runOps_inv (hg : goodTable primeTable) (Hh : ∀ k, hash k < 2 ^ 32) :
    ∀ (ops : List (Op Key Value)) (ht ht2 : HashTable Key Value),
      Inv hash primeTable ht →
      runOps hash B primeTable ops ht = .ok ht2 →
      Inv hash primeTable ht2 := by
  intro ops
  induction ops with
  | nil =>
      intro ht ht2 hInv h
      have : ht = ht2 := by injection h
      rw [← this]
      exact hInv
  | cons op rest ih =>
      intro ht ht2 hInv h
      unfold runOps at h
      cases hap : applyOp hash B primeTable ht op with
      | error e =>
          rw [hap] at h
          exact absurd h (by simp)
      | ok ht1 =>
          rw [hap] at h
          have hInv1 : Inv hash primeTable ht1 := by
            cases op with
            | set k v =>
                replace hap : (match Set hash B primeTable ht k v with
                    | .error e => .error e
                    | .ok r => .ok r.2) = TRes.ok ht1 := hap
                cases hset : Set hash B primeTable ht k v with
                | error e => rw [hset] at hap; exact absurd hap (by simp)
                | ok r =>
                    rw [hset] at hap
                    replace hap : TRes.ok r.2 = TRes.ok ht1 := hap
                    have hr : r.2 = ht1 := by injection hap
                    rw [← hr]
                    exact (set_ok_spec hash B primeTable ht r.2 k v r.1 hg Hh hInv
                      (by rw [hset])).1
            | remove k =>
                replace hap : (match Remove hash ht k with
                    | .error e => .error e
                    | .ok r => .ok r.2) = TRes.ok ht1 := hap
                cases hrem : Remove hash ht k with
                | error e => rw [hrem] at hap; exact absurd hap (by simp)
                | ok r =>
                    rw [hrem] at hap
                    replace hap : TRes.ok r.2 = TRes.ok ht1 := hap
                    have hr : r.2 = ht1 := by injection hap
                    rw [← hr]
                    exact remove_ok_inv hash primeTable ht r.2 k r.1 hg Hh hInv
                      (by rw [hrem])
          exact ih ht1 ht2 hInv1 h

end RemoveAndRunLemmas

section ErrorLemmas

variable {Key Value : Type} [DecidableEq Key]
variable (hash : Key → Nat) (B : GrowthBehavior) (primeTable : List PrimeInfo)

theorem nextPrime_error_char (n : Nat) (e : TableError)
    (h : NextPrime primeTable n = .error e) :
    e = .noMemory
    ∧ primeTable.find? (fun p => decide (n ≤ p.prime)) = none := by
  unfold NextPrime at h
  cases hf : primeTable.find? (fun p => decide (n ≤ p.prime)) with
  | some p =>
      rw [hf] at h
      exact absurd h (by simp)
  | none =>
      rw [hf] at h
      replace h : TRes.error TableError.noMemory = TRes.error e := h
      injection h with h2
      exact ⟨h2.symm, rfl⟩

theorem reallocate_error_char (ht : HashTable Key Value) (n : Nat)
    (e : TableError)
    (h : Reallocate hash B primeTable ht n = .error e) :
    e = .noMemory ∧ NextPrime primeTable n = .error .noMemory := by
  unfold Reallocate at h
  cases hnp : NextPrime primeTable n with
  | error e2 =>
      rw [hnp] at h
      replace h : TRes.error e2 = TRes.error e := h
      injection h with h2
      obtain ⟨h3, _⟩ := nextPrime_error_char primeTable n e2 hnp
      subst h2
      exact ⟨h3, by rw [h3]⟩
  | ok np =>
      rw [hnp] at h
      exact absurd h (by simp)

theorem grow_error_char (ht : HashTable Key Value) (e : TableError)
    (h : Grow hash B primeTable ht = .error e) :
    e = .noMemory
    ∧ (growSize B ht.m_tableCount < ht.m_tableCount
        ∨ NextPrime primeTable (growSize B ht.m_tableCount) = .error .noMemory) := by
  unfold Grow at h
  by_cases hlt : growSize B ht.m_tableCount < ht.m_tableCount
  · rw [if_pos hlt] at h
    injection h with h2
    exact ⟨h2.symm, Or.inl hlt⟩
  · rw [if_neg hlt] at h
    obtain ⟨h1, h2⟩ := reallocate_error_char hash B primeTable ht _ e h
    exact ⟨h1, Or.inr h2⟩

theorem checkGrowth_error_char (ht : HashTable Key Value) (e : TableError)
    (h : CheckGrowth hash B primeTable ht = .error e) :
    ht.m_tableCount = ht.m_tableMax
    ∧ Grow hash B primeTable ht = .error e := by
  unfold CheckGrowth at h
  by_cases hc : ht.m_tableCount = ht.m_tableMax
  · rw [if_pos hc] at h
    exact ⟨hc, h⟩
  · rw [if_neg hc] at h
    exact absurd h (by simp)

theorem setBody_no_error (ht1 : HashTable Key Value)
    (hg : goodTable primeTable) (Hh : ∀ k, hash k < 2 ^ 32)
    (hInv : Inv hash primeTable ht1) (hp : ht1.m_tableSizeInfo.prime ≠ 0)
    (k : Key) (v : Value) (e : TableError) :
    setBody hash ht1 k v ≠ .error e := by
  intro h
  have hilt := index_lt hash primeTable ht1 hg Hh hInv hp k
  have hbody := setBody_eq_chain hash ht1 k v _
    (getElem?_eq_getD ht1.m_table _ [] hilt)
  rw [hbody] at h
  cases hca : chainAssign k v (ht1.m_table.getD (GetIndexForKey hash ht1 k) []) with
  | some c2 =>
      rw [hca] at h
      exact absurd h (by simp)
  | none =>
      rw [hca] at h
      exact absurd h (by simp)

/-- A Set that fails does so only through the growth path: count had reached
max, the failure is the NoMemory hook, and the cause is either the detected
size wraparound or prime-table exhaustion. -/
theorem set_error_char (ht : HashTable Key Value)
    (hg : goodTable primeTable) (Hh : ∀ k, hash k < 2 ^ 32)
    (hInv : Inv hash primeTable ht) (k : Key) (v : Value) (e : TableError)
    (h : Set hash B primeTable ht k v = .error e) :
    ht.m_tableCount = ht.m_tableMax
    ∧ e = .noMemory
    ∧ (growSize B ht.m_tableCount < ht.m_tableCount
        ∨ NextPrime primeTable (growSize B ht.m_tableCount) = .error .noMemory) := by
  unfold Set at h
  cases hcg : CheckGrowth hash B primeTable ht with
  | ok ht1 =>
      rw [hcg] at h
      replace h : setBody hash ht1 k v = .error e := h
      obtain ⟨hInv1, _, _, hp1⟩ :=
        checkGrowth_ok_spec hash B primeTable ht ht1 hg Hh hInv hcg
      exact absurd h (setBody_no_error hash primeTable ht1 hg Hh hInv1 hp1 k v e)
  | error e2 =>
      rw [hcg] at h
      replace h : TRes.error e2 = TRes.error e := h
      injection h with h2
      subst h2
      obtain ⟨hc, hgrow⟩ := checkGrowth_error_char hash B primeTable ht e2 hcg
      obtain ⟨h1, h2⟩ := grow_error_char hash B primeTable ht e2 hgrow
      exact ⟨hc, h1, h2⟩

end ErrorLemmas

section ApplyOpLemmas

variable {Key Value : Type} [DecidableEq Key]
variable (hash : Key → Nat) (B : GrowthBehavior) (primeTable : List PrimeInfo)

theorem applyOp_set (ht : HashTable Key Value) (k : Key) (v : Value) :
    applyOp hash B primeTable ht (Op.set k v)
      = match Set hash B primeTable ht k v with
        | .error e => .error e
        | .ok r => .ok r.2 := rfl

theorem applyOp_remove (ht : HashTable Key Value) (k : Key) :
    applyOp hash B primeTable ht (Op.remove k)
      = match Remove hash ht k with
        | .error e => .error e
        | .ok r => .ok r.2 := rfl

end ApplyOpLemmas

section WitnessContext

/-- A concrete prime/magic entry for 3: magic = ceil(2^33 / 3), shift 1. -/
def pW3 : PrimeInfo := ⟨3, 2863311531, 1⟩

/-- A concrete prime/magic entry for 5: magic = ceil(2^34 / 5), shift 2. -/
def pW5 : PrimeInfo := ⟨5, 3435973837, 2⟩

/-- A concrete prime/magic entry for 11: magic = ceil(2^35 / 11), shift 3. -/
def pW11 : PrimeInfo := ⟨11, 3123612579, 3⟩

/-- A concrete prime/magic entry for 23: magic = ceil(2^36 / 23), shift 4. -/
def pW23 : PrimeInfo := ⟨23, 2987803337, 4⟩

/-- A small concrete prime/magic table in the style of the static table. -/
def primeTableW : List PrimeInfo := [pW3, pW5, pW11, pW23]

/-- A concrete Behavior policy: growth 3/2, density 3/4, minimum 3. -/
def BW : GrowthBehavior := ⟨3, 2, 3, 4, 3⟩

/-- A concrete hash policy on Nat keys producing 32-bit hash codes. -/
def hashW : Nat → Nat := fun k => k % 2 ^ 32

theorem hashW_lt : ∀ k, hashW k < 2 ^ 32 :=
  fun k => Nat.mod_lt _ (by norm_num)

theorem goodTable_primeTableW : goodTable primeTableW := by
  intro p hp
  simp only [primeTableW, List.mem_cons, List.not_mem_nil, or_false] at hp
  rcases hp with h | h | h | h
  · subst h
    exact ⟨by norm_num [pW3],
      validMagic_of_bounds _ (by norm_num [pW3]) (by norm_num [pW3])
        (by norm_num [pW3])⟩
  · subst h
    exact ⟨by norm_num [pW5],
      validMagic_of_bounds _ (by norm_num [pW5]) (by norm_num [pW5])
        (by norm_num [pW5])⟩
  · subst h
    exact ⟨by norm_num [pW11],
      validMagic_of_bounds _ (by norm_num [pW11]) (by norm_num [pW11])
        (by norm_num [pW11])⟩
  · subst h
    exact ⟨by norm_num [pW23],
      validMagic_of_bounds _ (by norm_num [pW23]) (by norm_num [pW23])
        (by norm_num [pW23])⟩

end WitnessContext

section ClaimTheorems

/-- C1: for every key k and value v, a successful Set(k, v) followed
immediately by Lookup(k) reports the key present with stored value v; the
statement covers both the no-growth case and the case where the Set
triggered a growth/rehash, since it holds for every successful Set from an
invariant state. -/
theorem set_then_lookup {Key Value : Type} [DecidableEq Key]
    (hash : Key → Nat) (B : GrowthBehavior) (primeTable : List PrimeInfo)
    (hg : goodTable primeTable) (Hh : ∀ k, hash k < 2 ^ 32)
    (ht : HashTable Key Value) (hInv : Inv hash primeTable ht)
    (k : Key) (v : Value) (b : Bool) (ht2 : HashTable Key Value)
    (h : Set hash B primeTable ht k v = .ok (b, ht2)) (v0 : Value) :
    Lookup hash ht2 k (some v0) = .ok (true, some v) := by
  obtain ⟨hInv2, hmem⟩ :=
    set_ok_spec hash B primeTable ht ht2 k v b hg Hh hInv h
  unfold Lookup
  rw [findNode_present hash primeTable ht2 hg Hh hInv2 k v hmem]

/-- C2: running any sequence of Set/Remove operations from the empty table,
when it succeeds, leaves no two nodes with the same key, and the count field
equals the number of distinct keys present.  Applied to every prefix of a
sequence this covers all intermediate states. -/
theorem run_count_distinct {Key Value : Type} [DecidableEq Key]
    (hash : Key → Nat) (B : GrowthBehavior) (primeTable : List PrimeInfo)
    (hg : goodTable primeTable) (Hh : ∀ k, hash k < 2 ^ 32)
    (ops : List (Op Key Value)) (ht : HashTable Key Value)
    (h : runOps hash B primeTable ops (emptyTable Key Value) = .ok ht) :
    (keysOf ht).Nodup ∧ ht.m_tableCount = ((keysOf ht).dedup).length := by
  have hInv := runOps_inv hash B primeTable hg Hh ops (emptyTable Key Value) ht
    (inv_emptyTable hash primeTable) h
  have hnd := hInv.2.2.2.2.1
  refine ⟨hnd, ?_⟩
  rw [hnd.dedup, hInv.2.2.2.2.2]
  unfold keysOf
  rw [List.length_map]

/-- C3: a Grow triggered with count at the max threshold preserves the
table's contents exactly: every Lookup answers the same before and after,
and the nodes of the new bucket array are exactly the nodes of the old one
(as a multiset - the rehash only relinks them). -/
theorem grow_preserves_contents {Key Value : Type} [DecidableEq Key]
    (hash : Key → Nat) (B : GrowthBehavior) (primeTable : List PrimeInfo)
    (hg : goodTable primeTable) (Hh : ∀ k, hash k < 2 ^ 32)
    (ht : HashTable Key Value) (hInv : Inv hash primeTable ht)
    (hcm : ht.m_tableCount = ht.m_tableMax)
    (ht2 : HashTable Key Value)
    (h : Grow hash B primeTable ht = .ok ht2) :
    (∀ (k : Key) (v0 : Value),
      Lookup hash ht2 k (some v0) = Lookup hash ht k (some v0))
    ∧ ht2.m_table.flatten.Perm ht.m_table.flatten := by
  obtain ⟨hInv2, hperm, _, _⟩ :=
    grow_ok_spec hash B primeTable ht ht2 hg Hh hInv h
  refine ⟨?_, hperm⟩
  intro k v0
  rcases findNode_cases hash primeTable ht hg Hh hInv k with
    ⟨hfn, habs⟩ | ⟨v, hfn, hmem⟩
  · have habs2 : k ∉ keysOf ht2 := by
      intro hk
      apply habs
      obtain ⟨v, hv⟩ := (mem_keysOf ht2 k).mp hk
      exact (mem_keysOf ht k).mpr ⟨v, hperm.mem_iff.mp hv⟩
    unfold Lookup
    rw [findNode_absent hash primeTable ht2 hg Hh hInv2 k habs2, hfn]
  · have hmem2 : (k, v) ∈ ht2.m_table.flatten := hperm.mem_iff.mpr hmem
    unfold Lookup
    rw [findNode_present hash primeTable ht2 hg Hh hInv2 k v hmem2, hfn]

/-- C4: for a PrimeInfo whose magic and shift are valid for its prime (the
spec's stated precondition: the multiply-shift computes exact division for
every 32-bit numerator), magicNumberDivide computes n / prime and
magicNumberRem computes n % prime, for every 32-bit n. -/
theorem magic_division_spec (p : PrimeInfo) (hval : validMagic p)
    (hp : 0 < p.prime) :
    ∀ n, n < 2 ^ 32 →
      magicNumberDivide n p = n / p.prime
      ∧ magicNumberRem n p = n % p.prime :=
  fun n hn => ⟨hval n hn, magicNumberRem_eq_mod p hval hp n hn⟩

/-- C5 counterexample: on the uninitialized zero-capacity table, Remove
indexes the NULL bucket array (its source has no prime = 0 guard, unlike
FindNode), so it faults instead of returning false with the table
unchanged. -/
theorem remove_uninitialized_cex :
    Remove hashW (emptyTable Nat Nat) 5 = .error .outOfBounds
    ∧ Remove hashW (emptyTable Nat Nat) 5 ≠ .ok (false, emptyTable Nat Nat) := by
  constructor
  · rfl
  · decide

/-- C5 amended: on every initialized (prime ≠ 0) invariant-satisfying table,
Remove of an absent key returns false and leaves the table unchanged, and
Remove of a present key splices exactly the matching node out of its chain,
decrements count, and returns true, never changing the size descriptor, the
max threshold or any other bucket (no growth or shrink). -/
theorem remove_spec_initialized {Key Value : Type} [DecidableEq Key]
    (hash : Key → Nat) (primeTable : List PrimeInfo)
    (hg : goodTable primeTable) (Hh : ∀ k, hash k < 2 ^ 32)
    (ht : HashTable Key Value) (hInv : Inv hash primeTable ht)
    (hp : ht.m_tableSizeInfo.prime ≠ 0) (k : Key) :
    (k ∉ keysOf ht → Remove hash ht k = .ok (false, ht))
    ∧ (∀ v, (k, v) ∈ ht.m_table.flatten →
        ∃ pre post,
          ht.m_table.getD (GetIndexForKey hash ht k) [] = pre ++ (k, v) :: post
          ∧ (∀ kv ∈ pre, kv.1 ≠ k)
          ∧ Remove hash ht k = .ok (true,
              { m_table := ht.m_table.set (GetIndexForKey hash ht k) (pre ++ post),
                m_tableSizeInfo := ht.m_tableSizeInfo,
                m_tableCount := ht.m_tableCount - 1,
                m_tableMax := ht.m_tableMax })) := by
  constructor
  · intro habs
    exact remove_absent hash primeTable ht hg Hh hInv hp k habs
  · intro v hv
    obtain ⟨pre, post, h1, h2, h3, _, _⟩ :=
      remove_present hash primeTable ht hg Hh hInv hp k v hv
    exact ⟨pre, post, h1, h2, h3⟩

/-- C6: Set performs the growth admission check first - when count = max at
entry it invokes Grow (even if the key already exists), otherwise it
proceeds on the unchanged table - and then searches the key's bucket of the
resulting table: on a hit it overwrites the first matching node's value in
place, keeps count, and returns true; on a miss it links a new node as the
chain head (LIFO), increments count, and returns false. -/
theorem set_behavior_spec {Key Value : Type} [DecidableEq Key]
    (hash : Key → Nat) (B : GrowthBehavior) (primeTable : List PrimeInfo)
    (hg : goodTable primeTable) (Hh : ∀ k, hash k < 2 ^ 32)
    (ht : HashTable Key Value) (hInv : Inv hash primeTable ht)
    (k : Key) (v : Value) :
    (ht.m_tableCount ≠ ht.m_tableMax →
      Set hash B primeTable ht k v = setBody hash ht k v)
    ∧ (ht.m_tableCount = ht.m_tableMax →
        (∀ e, Grow hash B primeTable ht = .error e →
          Set hash B primeTable ht k v = .error e)
        ∧ (∀ ht1, Grow hash B primeTable ht = .ok ht1 →
            Set hash B primeTable ht k v = setBody hash ht1 k v))
    ∧ (∀ ht1, Inv hash primeTable ht1 → ht1.m_tableSizeInfo.prime ≠ 0 →
        (k ∈ keysOf ht1 →
          ∃ ht2 pre vOld post,
            setBody hash ht1 k v = .ok (true, ht2)
            ∧ ht1.m_table.getD (GetIndexForKey hash ht1 k) []
                = pre ++ (k, vOld) :: post
            ∧ (∀ kv ∈ pre, kv.1 ≠ k)
            ∧ ht2.m_table = ht1.m_table.set (GetIndexForKey hash ht1 k)
                (pre ++ (k, v) :: post)
            ∧ ht2.m_tableSizeInfo = ht1.m_tableSizeInfo
            ∧ ht2.m_tableMax = ht1.m_tableMax
            ∧ ht2.m_tableCount = ht1.m_tableCount)
        ∧ (k ∉ keysOf ht1 →
          ∃ ht2,
            setBody hash ht1 k v = .ok (false, ht2)
            ∧ ht2.m_table = ht1.m_table.set (GetIndexForKey hash ht1 k)
                ((k, v) :: ht1.m_table.getD (GetIndexForKey hash ht1 k) [])
            ∧ ht2.m_tableSizeInfo = ht1.m_tableSizeInfo
            ∧ ht2.m_tableMax = ht1.m_tableMax
            ∧ ht2.m_tableCount = ht1.m_tableCount + 1)) := by
  refine ⟨?_, ?_, ?_⟩
  · intro hne
    unfold Set CheckGrowth
    rw [if_neg hne]
  · intro hc
    constructor
    · intro e hge
      unfold Set CheckGrowth
      rw [if_pos hc, hge]
    · intro ht1 hgok
      unfold Set CheckGrowth
      rw [if_pos hc, hgok]
  · intro ht1 hInv1 hp1
    constructor
    · intro hhit
      obtain ⟨ht2, pre, vOld, post, hbody, hchain, hpre, htab, hsi, hmax, hcnt,
        _, _, _⟩ := setBody_hit hash primeTable ht1 hg Hh hInv1 hp1 k v hhit
      exact ⟨ht2, pre, vOld, post, hbody, hchain, hpre, htab, hsi, hmax, hcnt⟩
    · intro hmiss
      obtain ⟨ht2, hbody, htab, hsi, hmax, hcnt, _, _, _⟩ :=
        setBody_miss hash primeTable ht1 hg Hh hInv1 hp1 k v hmiss
      exact ⟨ht2, hbody, htab, hsi, hmax, hcnt⟩

/-- C7: Grow computes its target size as
count * growth_num / growth_den * density_den / density_num, evaluated left
to right (exactly that expression whenever the 32-bit intermediates do not
wrap), floors it at minimum_allocation, and whenever the computed size is
below count (the overflow detection) it fails through the NoMemory hook
rather than proceeding with any clamped size. -/
theorem grow_overflow_spec {Key Value : Type} [DecidableEq Key]
    (hash : Key → Nat) (B : GrowthBehavior) (primeTable : List PrimeInfo) :
    (∀ c : Nat,
      c * B.s_growth_factor_numerator < 2 ^ 32 →
      c * B.s_growth_factor_numerator / B.s_growth_factor_denominator
        * B.s_density_factor_denominator < 2 ^ 32 →
      growNewSize B c
        = c * B.s_growth_factor_numerator / B.s_growth_factor_denominator
          * B.s_density_factor_denominator / B.s_density_factor_numerator)
    ∧ (∀ c, growNewSize B c < B.s_minimum_allocation →
        growSize B c = B.s_minimum_allocation)
    ∧ (∀ c, ¬ growNewSize B c < B.s_minimum_allocation →
        growSize B c = growNewSize B c)
    ∧ (∀ ht : HashTable Key Value,
        growSize B ht.m_tableCount < ht.m_tableCount →
        Grow hash B primeTable ht = .error .noMemory) := by
  refine ⟨?_, ?_, ?_, ?_⟩
  · intro c h1 h2
    unfold growNewSize
    rw [Nat.mod_eq_of_lt h1, Nat.mod_eq_of_lt h2]
  · intro c h
    unfold growSize
    rw [if_pos h]
  · intro c h
    unfold growSize
    rw [if_neg h]
  · intro ht h
    unfold Grow
    rw [if_pos h]

/-- C8: NextPrime returns the first entry of the table whose prime is at
least the requested number (entries before it all have smaller primes), and
when the table is exhausted it reports the overflow through the NoMemory
hook - exhaustion and the error result coincide exactly, with no fallback
value. -/
theorem nextPrime_spec (primeTable : List PrimeInfo) (n : Nat) :
    (∀ p, NextPrime primeTable n = .ok p →
      ∃ i, ∃ hi : i < primeTable.length,
        primeTable.get ⟨i, hi⟩ = p ∧ n ≤ p.prime
        ∧ ∀ j (hj : j < i), (primeTable.get ⟨j, hj.trans hi⟩).prime < n)
    ∧ (NextPrime primeTable n = .error .noMemory
        ↔ ∀ p ∈ primeTable, p.prime < n) := by
  constructor
  · induction primeTable with
    | nil =>
        intro p h
        exact absurd h (by simp [NextPrime, List.find?])
    | cons q rest ih =>
        intro p h
        unfold NextPrime at h
        by_cases hq : n ≤ q.prime
        · rw [List.find?_cons_of_pos _ (by simpa using hq)] at h
          replace h : TRes.ok q = TRes.ok p := h
          injection h with h2
          subst h2
          exact ⟨0, by simp, rfl, hq, fun j hj => absurd hj (by omega)⟩
        · rw [List.find?_cons_of_neg _ (by simpa using hq)] at h
          have h2 : NextPrime rest n = .ok p := h
          obtain ⟨i, hi, hget, hle, hbefore⟩ := ih p h2
          refine ⟨i + 1, by simpa using Nat.succ_lt_succ hi, hget, hle, ?_⟩
          intro j hj
          cases j with
          | zero =>
              show q.prime < n
              omega
          | succ j2 =>
              exact hbefore j2 (by omega)
  · constructor
    · intro h p hp
      obtain ⟨_, hf⟩ := nextPrime_error_char primeTable n .noMemory h
      have hnp := List.find?_eq_none.mp hf p hp
      simp only [decide_eq_true_eq] at hnp
      omega
    · intro h
      unfold NextPrime
      cases hf : primeTable.find? (fun p => decide (n ≤ p.prime)) with
      | some p =>
          exfalso
          have hm := List.mem_of_find?_eq_some hf
          have hs := List.find?_some hf
          simp only [decide_eq_true_eq] at hs
          have := h p hm
          omega
      | none => rfl

/-- C9: when Set fails, the cause is the growth path - count had reached
max, the failure is the NoMemory hook, triggered by the detected size
wraparound or by prime-table exhaustion - and the table is left in its
prior state: running the failing operation yields the untouched input table
(the C code reaches its failure hooks before writing any field of the
table, and commits the new array only after it is fully populated). -/
theorem growth_failure_atomic {Key Value : Type} [DecidableEq Key]
    (hash : Key → Nat) (B : GrowthBehavior) (primeTable : List PrimeInfo)
    (hg : goodTable primeTable) (Hh : ∀ k, hash k < 2 ^ 32)
    (ht : HashTable Key Value) (hInv : Inv hash primeTable ht)
    (k : Key) (v : Value) (e : TableError)
    (h : Set hash B primeTable ht k v = .error e) :
    ht.m_tableCount = ht.m_tableMax
    ∧ e = .noMemory
    ∧ (growSize B ht.m_tableCount < ht.m_tableCount
        ∨ NextPrime primeTable (growSize B ht.m_tableCount) = .error .noMemory)
    ∧ runOpsK hash B primeTable [Op.set k v] ht = (ht, true) := by
  obtain ⟨h1, h2, h3⟩ :=
    set_error_char hash B primeTable ht hg Hh hInv k v e h
  refine ⟨h1, h2, h3, ?_⟩
  have hap : applyOp hash B primeTable ht (Op.set k v) = .error e := by
    rw [applyOp_set hash B primeTable ht k v, h]
  unfold runOpsK
  rw [hap]

/-- C10: Lookup accepts a NULL output pointer: it returns the same
present/absent result (or the same fault) as a Lookup with a non-null
pointer, and writes nothing - the null location stays null, and the table
is untouched (Lookup is a read-only operation in the model). -/
theorem lookup_null_spec {Key Value : Type} [DecidableEq Key]
    (hash : Key → Nat) (ht : HashTable Key Value) (k : Key) (v0 : Value) :
    (∀ e, Lookup hash ht k (some v0) = .error e
      ↔ Lookup hash ht k none = .error e)
    ∧ (∀ b r, Lookup hash ht k (some v0) = .ok (b, r) →
        Lookup hash ht k none = .ok (b, none)) := by
  unfold Lookup
  cases FindNode hash ht k with
  | error e2 =>
      refine ⟨fun e => by simp, fun b r h => by simp at h⟩
  | ok o =>
      cases o with
      | none =>
          refine ⟨fun e => by simp, fun b r h => ?_⟩
          replace h : TRes.ok (false, some v0) = TRes.ok (b, r) := h
          injection h with h2
          have hb : false = b := (Prod.mk.injEq _ _ _ _ |>.mp h2).1
          rw [← hb]
      | some nkv =>
          refine ⟨fun e => by simp, fun b r h => ?_⟩
          replace h : TRes.ok (true, some nkv.2) = TRes.ok (b, r) := h
          injection h with h2
          have hb : true = b := (Prod.mk.injEq _ _ _ _ |>.mp h2).1
          rw [← hb]

end ClaimTheorems

section Witnesses

theorem set_then_lookup_witness :
    ∃ ht2, Set hashW BW primeTableW (emptyTable Nat Nat) 1 2 = .ok (false, ht2)
      ∧ Lookup hashW ht2 1 (some 0) = .ok (true, some 2) := by
  have h : Set hashW BW primeTableW (emptyTable Nat Nat) 1 2
      = .ok (false, ⟨[[], [(1, 2)], []], pW3, 1, 2⟩) := by rfl
  exact ⟨_, h, set_then_lookup hashW BW primeTableW goodTable_primeTableW
    hashW_lt _ (inv_emptyTable hashW primeTableW) 1 2 false _ h 0⟩

theorem run_count_distinct_witness :
    ∃ ht, runOps hashW BW primeTableW
        [Op.set 1 2, Op.set (1 : Nat) (3 : Nat), Op.set 2 5, Op.remove 1]
        (emptyTable Nat Nat) = .ok ht
      ∧ (keysOf ht).Nodup ∧ ht.m_tableCount = ((keysOf ht).dedup).length := by
  have h : runOps hashW BW primeTableW
      [Op.set 1 2, Op.set (1 : Nat) (3 : Nat), Op.set 2 5, Op.remove 1]
      (emptyTable Nat Nat) = .ok ⟨[[], [], [(2, 5)]], pW3, 1, 2⟩ := by rfl
  exact ⟨_, h, run_count_distinct hashW BW primeTableW goodTable_primeTableW
    hashW_lt _ _ h⟩

theorem grow_preserves_contents_witness :
    ∃ ht2, Grow hashW BW primeTableW (emptyTable Nat Nat) = .ok ht2
      ∧ Lookup hashW ht2 7 (some 0)
          = Lookup hashW (emptyTable Nat Nat) 7 (some 0)
      ∧ ht2.m_table.flatten.Perm (emptyTable Nat Nat).m_table.flatten := by
  have h : Grow hashW BW primeTableW (emptyTable Nat Nat)
      = .ok ⟨[[], [], []], pW3, 0, 2⟩ := by rfl
  obtain ⟨hlook, hperm⟩ := grow_preserves_contents hashW BW primeTableW
    goodTable_primeTableW hashW_lt _ (inv_emptyTable hashW primeTableW) rfl _ h
  exact ⟨_, h, hlook 7 0, hperm⟩

theorem magic_division_spec_witness :
    validMagic pW3 ∧ 0 < pW3.prime
    ∧ magicNumberDivide 12345 pW3 = 12345 / 3
    ∧ magicNumberRem 12345 pW3 = 12345 % 3 := by
  have hval : validMagic pW3 :=
    validMagic_of_bounds _ (by norm_num [pW3]) (by norm_num [pW3])
      (by norm_num [pW3])
  obtain ⟨h1, h2⟩ := magic_division_spec pW3 hval (by norm_num [pW3])
    12345 (by norm_num)
  exact ⟨hval, by norm_num [pW3], h1, h2⟩

theorem remove_spec_initialized_witness :
    Remove hashW (⟨[[], [(1, 2)], []], pW3, 1, 2⟩ : HashTable Nat Nat) 5
      = .ok (false, ⟨[[], [(1, 2)], []], pW3, 1, 2⟩) := by
  have hInv : Inv hashW primeTableW
      (⟨[[], [(1, 2)], []], pW3, 1, 2⟩ : HashTable Nat Nat) := by decide
  exact (remove_spec_initialized hashW primeTableW goodTable_primeTableW
    hashW_lt _ hInv (by decide) 5).1 (by decide)

theorem set_behavior_spec_witness :
    Grow hashW BW primeTableW (emptyTable Nat Nat)
      = .ok (⟨[[], [], []], pW3, 0, 2⟩ : HashTable Nat Nat)
    ∧ Set hashW BW primeTableW (emptyTable Nat Nat) 1 2
        = setBody hashW (⟨[[], [], []], pW3, 0, 2⟩ : HashTable Nat Nat) 1 2
    ∧ ∃ ht2, setBody hashW (⟨[[], [], []], pW3, 0, 2⟩ : HashTable Nat Nat) 1 2
        = .ok (false, ht2) := by
  have hgrow : Grow hashW BW primeTableW (emptyTable Nat Nat)
      = .ok (⟨[[], [], []], pW3, 0, 2⟩ : HashTable Nat Nat) := by rfl
  have hth := set_behavior_spec hashW BW primeTableW goodTable_primeTableW
    hashW_lt (emptyTable Nat Nat) (inv_emptyTable hashW primeTableW) 1 2
  have hset := (hth.2.1 rfl).2 _ hgrow
  have hInv1 : Inv hashW primeTableW
      (⟨[[], [], []], pW3, 0, 2⟩ : HashTable Nat Nat) := by decide
  obtain ⟨ht2, hbody, _⟩ := (hth.2.2 _ hInv1 (by decide)).2 (by decide)
  exact ⟨hgrow, hset, ht2, hbody⟩

theorem grow_overflow_spec_witness :
    growNewSize BW 10 = 10 * 3 / 2 * 4 / 3
    ∧ growSize BW 0 = 3
    ∧ Grow hashW (⟨3, 1, 1, 2, 7⟩ : GrowthBehavior) primeTableW
        (⟨[], pW3, 1610612736, 0⟩ : HashTable Nat Nat) = .error .noMemory := by
  have hth := @grow_overflow_spec Nat Nat _ hashW BW primeTableW
  have hth2 := @grow_overflow_spec Nat Nat _ hashW
    (⟨3, 1, 1, 2, 7⟩ : GrowthBehavior) primeTableW
  refine ⟨hth.1 10 (by norm_num [BW]) (by norm_num [BW]),
    hth.2.1 0 (by norm_num [growNewSize, BW]),
    hth2.2.2.2 (⟨[], pW3, 1610612736, 0⟩ : HashTable Nat Nat) (by decide)⟩

theorem nextPrime_spec_witness :
    (∃ i, ∃ hi : i < primeTableW.length,
      primeTableW.get ⟨i, hi⟩ = pW5 ∧ 4 ≤ pW5.prime
      ∧ ∀ j (hj : j < i), (primeTableW.get ⟨j, hj.trans hi⟩).prime < 4)
    ∧ (∀ p ∈ primeTableW, p.prime < 100) := by
  constructor
  · exact (nextPrime_spec primeTableW 4).1 pW5 (by rfl)
  · exact (nextPrime_spec primeTableW 100).2.mp (by rfl)

theorem growth_failure_atomic_witness :
    Set hashW BW ([] : List PrimeInfo) (emptyTable Nat Nat) 1 2
      = .error .noMemory
    ∧ runOpsK hashW BW ([] : List PrimeInfo) [Op.set 1 2] (emptyTable Nat Nat)
        = (emptyTable Nat Nat, true) := by
  have hset : Set hashW BW ([] : List PrimeInfo) (emptyTable Nat Nat) 1 2
      = .error .noMemory := by rfl
  have hg : goodTable ([] : List PrimeInfo) := by
    intro p hp
    cases hp
  exact ⟨hset, (growth_failure_atomic hashW BW [] hg hashW_lt _
    (inv_emptyTable hashW []) 1 2 .noMemory hset).2.2.2⟩

theorem lookup_null_spec_witness :
    Lookup hashW (emptyTable Nat Nat) 5 none = .ok (false, none) :=
  (lookup_null_spec hashW (emptyTable Nat Nat) 5 0).2 false (some 0) (by rfl)

end Witnesses

end SimplerHash
